import Mathlib

/-!
# Verification of the `lup-caches` eviction engine (src/index.js)

Shallow embedding of the four cache classes of `src/index.js`:
`FixedSizeLFUCache`, `FixedCountLFUCache`, `FixedSizeLRUCache`,
`FixedCountLRUCache`, together with proofs and refutations of the
testable properties stated in the specification.

Modelling conventions:
* JS objects used as key→entry maps become association lists
  `List (String × Entry)`.  JS objects preserve string-key insertion order,
  assignment to an existing key keeps its position, assignment to a fresh
  key appends, and `delete` removes the key; the helpers `setKey`, `delKey`,
  `modVal`, `findVal` below implement exactly this discipline.
* JS numbers that the engine treats as integers (byte sizes, counts,
  access counters, millisecond timestamps) become `Int`.
  `Math.floor(x / 2)` on these values is `Int.fdiv x 2`.
* `Date.now()` is passed to `put` explicitly as a `now : Int` parameter
  (each `put` reads the clock once).
* Keys are primitive JS strings (the `put` key guard of every class admits
  only string keys; the empty string is falsy and is rejected).
* Eviction callbacks are total functions `String → JSValue → Bool`;
  a JS callback returning anything other than `false` behaves like `true`
  under the `=== false` veto test, so `Bool` is an adequate return model.
* Thrown JS exceptions become `Except JSErr` results.
* Every `put` additionally returns the list of eviction-candidate visits it
  performed (which candidate was considered, and with which arguments its
  callback was invoked).  This trace is pure instrumentation: it records
  the calls the source makes, and no definition reads it back.
-/

/-- A cached JS value, as far as byte-size derivation is concerned:
a primitive string, a `Buffer` of a given byte length, or any other value
(number, plain object, …) whose byte size cannot be derived. -/
inductive JSValue where
  | str (s : String)
  | buf (len : Nat)
  | other
deriving DecidableEq

/-- `Buffer.byteLength(value)`: defined for primitive strings (UTF-8 byte
length) and Buffers; every other argument makes it throw
`ERR_INVALID_ARG_TYPE`, modelled as `none`. -/
def bufferByteLength : JSValue → Option Int
  | .str s => some (s.utf8ByteSize : Int)
  | .buf n => some (n : Int)
  | .other => none

/-- Exceptions the engine can raise. -/
inductive JSErr where
  /-- line 82/252/402/560: `Error("Key must be defined and of type String")`. -/
  | keyInvalid
  /-- a `TypeError` raised by the JS runtime itself, e.g. `Buffer.byteLength`
  on a non-string/non-Buffer argument (`ERR_INVALID_ARG_TYPE`), or reading a
  property of `undefined`. -/
  | typeErr
  /-- line 87/407: `Error("Byte size must be provided for a value of type …")`,
  the spec's `CostRequired` error. -/
  | costRequired
  /-- model artifact: the fuel of the LRU eviction loop ran out, i.e. the JS
  `while` loop would not have terminated (impossible for well-formed
  recency lists). -/
  | noFuel
deriving DecidableEq

/-- An eviction callback: receives a key and a value, returns `false` to
veto the eviction (any other JS return value lets the eviction proceed). -/
abbrev Cb := String → JSValue → Bool

/-- One visit of the eviction loop to a candidate entry. -/
inductive Visit where
  /-- the candidate had no `onEvict` callback, so none was invoked. -/
  | silent (cand : String)
  /-- the candidate's callback was invoked with `argKey` and `argVal` and
  returned `ret`. -/
  | called (cand argKey : String) (argVal : JSValue) (ret : Bool)
deriving DecidableEq

/-- The candidate an eviction-loop visit was about. -/
def Visit.cand : Visit → String
  | .silent c => c
  | .called c _ _ _ => c

/-! ## Association-list primitives (JS object semantics) -/

/-- `obj[k]` as a read: the value at the first (unique) occurrence of `k`. -/
def findVal : List (String × α) → String → Option α
  | [], _ => none
  | (k', v) :: rest, k => if k' = k then some v else findVal rest k

/-- `obj[k] = v`: overwrite in place (keeping the key's position) if `k` is
present, append at the end otherwise. -/
def setKey : List (String × α) → String → α → List (String × α)
  | [], k, v => [(k, v)]
  | (k', v') :: rest, k, v =>
    if k' = k then (k, v) :: rest else (k', v') :: setKey rest k v

/-- `delete obj[k]`: remove the key's entry. -/
def delKey : List (String × α) → String → List (String × α)
  | [], _ => []
  | (k', v') :: rest, k => if k' = k then rest else (k', v') :: delKey rest k

/-- Mutate the entry stored at `k` in place (`obj[k].field = …`).
If `k` is absent this is the identity; the JS original would throw writing a
property of `undefined`, but every use below is guarded by the key being
live, which the well-formedness hypotheses of the theorems guarantee. -/
def modVal : List (String × α) → String → (α → α) → List (String × α)
  | [], _, _ => []
  | (k', v) :: rest, k, f =>
    if k' = k then (k', f v) :: rest else (k', v) :: modVal rest k f

/-- `Object.keys(obj)`. -/
def keysOf (es : List (String × α)) : List String := es.map (·.1)

/-! ## Cost resolution (lines 83–89 and 403–409) -/

/-- Whether the `options.size` argument is falsy (`!options.size`):
absent (`undefined`) or `0`.  Note negative numbers are truthy. -/
def sizeFalsy : Option Int → Bool
  | none => true
  | some n => n == 0

/-- `typeof key === 'string'` inside the derivation branch.  The key guard at
the top of `put` only admits string keys, and keys are modelled as primitive
JS strings, so this condition is always true. -/
def keyTypeofIsString : Bool := true

/-- Lines 84–88 (and identically 404–408): derive the byte size of `value`.
Because `typeof key === 'string'` is always true (the condition tests the
*key's* type, not the value's), control always reaches
`Buffer.byteLength(value)`, which throws `ERR_INVALID_ARG_TYPE` (`typeErr`)
for a value that is neither a string nor a Buffer; the
`throw Error("Byte size must be provided …")` branch (`costRequired`) is
unreachable. -/
def deriveSize (value : JSValue) : Except JSErr Int :=
  if keyTypeofIsString then
    match bufferByteLength value with
    | some n => .ok n
    | none => .error .typeErr
  else
    .error .costRequired

/-- Lines 83–89 (and identically 403–409): the byte size used for a `put`.
A falsy `options.size` (absent or `0`) is re-derived from the value. -/
def resolveSize (sizeOpt : Option Int) (value : JSValue) : Except JSErr Int :=
  if sizeFalsy sizeOpt then deriveSize value
  else .ok (sizeOpt.getD 0)

/-! ## `FixedSizeLFUCache` (lines 9–176) -/

/-- An entry of `FixedSizeLFUCache.#entries`
(`{value, size, accesses, onEvict}`, line 13). -/
structure SLfuEntry where
  value : JSValue
  size : Int
  accesses : Int
  onEvict : Option Cb

/-- The private state of a `FixedSizeLFUCache`
(`#maxSize`, `#expireMs`, `#size`, `#entries`, `#nextExpire`). -/
structure FixedSizeLFUCache where
  maxSize : Int
  expireMs : Int
  size : Int
  entries : List (String × SLfuEntry)
  nextExpire : Int

/-- An entry of `FixedCountLFUCache.#entries`
(`{value, accesses, onEvict}`, line 192). -/
structure CLfuEntry where
  value : JSValue
  accesses : Int
  onEvict : Option Cb

/-- The private state of a `FixedCountLFUCache`
(`#maxCount`, `#count`, `#expireMs`, `#entries`, `#nextExpire`). -/
structure FixedCountLFUCache where
  maxCount : Int
  count : Int
  expireMs : Int
  entries : List (String × CLfuEntry)
  nextExpire : Int

/-- Lines 92–99: on `put`, if the expire interval is enabled and
`#nextExpire < now`, halve every entry's access counter
(`Math.floor(v.accesses / 2)`) and set `#nextExpire = now + #expireMs`. -/
def FixedSizeLFUCache.decayStep (st : FixedSizeLFUCache) (now : Int) :
    FixedSizeLFUCache :=
  if 0 ≤ st.expireMs then
    if st.nextExpire < now then
      { st with
        nextExpire := now + st.expireMs,
        entries := st.entries.map
          (fun p => (p.1, { p.2 with accesses := Int.fdiv p.2.accesses 2 })) }
    else st
  else st

/-- Lines 254–261: identical decay step of `FixedCountLFUCache.put`. -/
def FixedCountLFUCache.decayStep (st : FixedCountLFUCache) (now : Int) :
    FixedCountLFUCache :=
  if 0 ≤ st.expireMs then
    if st.nextExpire < now then
      { st with
        nextExpire := now + st.expireMs,
        entries := st.entries.map
          (fun p => (p.1, { p.2 with accesses := Int.fdiv p.2.accesses 2 })) }
    else st
  else st

/-- Ascending comparison on access counters for `FixedSizeLFUCache` snapshot
pairs (the JS comparator `a.accesses - b.accesses`). -/
def accLeS (p q : String × SLfuEntry) : Prop := p.2.accesses ≤ q.2.accesses

instance : DecidableRel accLeS := fun p q => Int.decLe p.2.accesses q.2.accesses

instance : IsTotal (String × SLfuEntry) accLeS := ⟨fun p q => Int.le_total p.2.accesses q.2.accesses⟩

instance : IsTrans (String × SLfuEntry) accLeS :=
  ⟨fun _ _ _ h h' => le_trans h h'⟩

/-- Ascending comparison on access counters for `FixedCountLFUCache`. -/
def accLeC (p q : String × CLfuEntry) : Prop := p.2.accesses ≤ q.2.accesses

instance : DecidableRel accLeC := fun p q => Int.decLe p.2.accesses q.2.accesses

instance : IsTotal (String × CLfuEntry) accLeC := ⟨fun p q => Int.le_total p.2.accesses q.2.accesses⟩

instance : IsTrans (String × CLfuEntry) accLeC :=
  ⟨fun _ _ _ h h' => le_trans h h'⟩

/-- Line 103/265: `Object.entries(this.#entries).sort((a, b) =>
a.accesses - b.accesses)`.  JS `Array.prototype.sort` is stable and a stable
sort by a total preorder is unique, so the stable insertion sort produces
exactly the JS result: ascending access counts, ties in entry-store
insertion order. -/
def sortByAccS (es : List (String × SLfuEntry)) : List (String × SLfuEntry) :=
  List.insertionSort accLeS es

/-- Snapshot sort of `FixedCountLFUCache.put` (line 265). -/
def sortByAccC (es : List (String × CLfuEntry)) : List (String × CLfuEntry) :=
  List.insertionSort accLeC es

/-- The shared LFU eviction loop (lines 104–110 and 266–272): walk the sorted
snapshot by increasing index while the cache is still short of room
(`short ledger`), skipping candidates whose callback returns `false` and
otherwise deleting the candidate and crediting the ledger by `cost`.
`getCb`/`getVal` project the callback and value out of the entry, `ledger`
is `#size` (size variant) resp. `#count` (count variant). -/
def lfuEvictPass (short : Int → Bool) (cost : α → Int) (getCb : α → Option Cb)
    (getVal : α → JSValue) :
    List (String × α) → Int → List (String × α) → List Visit →
      Int × List (String × α) × List Visit
  | [], ledger, es, tr => (ledger, es, tr)
  | (k, e) :: rest, ledger, es, tr =>
    if short ledger then
      match getCb e with
      | some cb =>
        if cb k (getVal e) = false then
          lfuEvictPass short cost getCb getVal rest ledger es
            (tr ++ [.called k k (getVal e) (cb k (getVal e))])
        else
          lfuEvictPass short cost getCb getVal rest (ledger - cost e)
            (delKey es k) (tr ++ [.called k k (getVal e) (cb k (getVal e))])
      | none =>
        lfuEvictPass short cost getCb getVal rest (ledger - cost e)
          (delKey es k) (tr ++ [.silent k])
    else (ledger, es, tr)

/-- `FixedSizeLFUCache.put` (lines 81–124). -/
def FixedSizeLFUCache.put (st : FixedSizeLFUCache) (now : Int) (key : String)
    (value : JSValue) (sizeOpt : Option Int) (onEvict : Option Cb) :
    Except JSErr (Bool × FixedSizeLFUCache × List Visit) :=
  if key = "" then .error .keyInvalid else
  match resolveSize sizeOpt value with
  | .error err => .error err
  | .ok sz =>
    if sz > st.maxSize then .ok (false, st, []) else
    let st1 := st.decayStep now
    if st1.maxSize - st1.size < sz then
      let res := lfuEvictPass (fun l => decide (st1.maxSize - l < sz)) (·.size)
        (·.onEvict) (·.value) (sortByAccS st1.entries) st1.size st1.entries []
      if st1.maxSize - res.1 < sz then
        .ok (false, { st1 with size := res.1, entries := res.2.1 }, res.2.2)
      else
        .ok (true,
          { st1 with
            size := res.1 + sz,
            entries := setKey res.2.1 key ⟨value, sz, 1, onEvict⟩ },
          res.2.2)
    else
      .ok (true,
        { st1 with
          size := st1.size + sz,
          entries := setKey st1.entries key ⟨value, sz, 1, onEvict⟩ },
        [])

/-- `FixedSizeLFUCache.get` (lines 132–137). -/
def FixedSizeLFUCache.get (st : FixedSizeLFUCache) (key : String) :
    Option JSValue × FixedSizeLFUCache :=
  match findVal st.entries key with
  | none => (none, st)
  | some e =>
    let es := modVal st.entries key
      (fun e' => { e' with accesses := e'.accesses + 1 })
    (some e.value, { st with entries := es })

/-- `FixedCountLFUCache.put` (lines 251–284).  Note there is no byte-size
handling and no absolute-feasibility check; the entry count is incremented
even when `key` was already present. -/
def FixedCountLFUCache.put (st : FixedCountLFUCache) (now : Int) (key : String)
    (value : JSValue) (onEvict : Option Cb) :
    Except JSErr (Bool × FixedCountLFUCache × List Visit) :=
  if key = "" then .error .keyInvalid else
  let st1 := st.decayStep now
  if st1.count ≥ st1.maxCount then
    let res := lfuEvictPass (fun l => decide (l ≥ st1.maxCount)) (fun _ => 1)
      (·.onEvict) (·.value) (sortByAccC st1.entries) st1.count st1.entries []
    if res.1 ≥ st1.maxCount then
      .ok (false, { st1 with count := res.1, entries := res.2.1 }, res.2.2)
    else
      .ok (true,
        { st1 with
          count := res.1 + 1,
          entries := setKey res.2.1 key ⟨value, 1, onEvict⟩ },
        res.2.2)
  else
    .ok (true,
      { st1 with
        count := st1.count + 1,
        entries := setKey st1.entries key ⟨value, 1, onEvict⟩ },
      [])

/-- `FixedCountLFUCache.get` (lines 292–297). -/
def FixedCountLFUCache.get (st : FixedCountLFUCache) (key : String) :
    Option JSValue × FixedCountLFUCache :=
  match findVal st.entries key with
  | none => (none, st)
  | some e =>
    let es := modVal st.entries key
      (fun e' => { e' with accesses := e'.accesses + 1 })
    (some e.value, { st with entries := es })

/-- The body of `FixedCountLFUCache.clear` (lines 322–327): iterate over a
snapshot of the entries; when callbacks are requested a `false` return skips
the entry; otherwise the entry is deleted directly from the store —
without decrementing `#count`. -/
def countClearLoop (callCb : Bool) :
    List (String × CLfuEntry) → List (String × CLfuEntry) →
      List (String × CLfuEntry)
  | [], es => es
  | (k, e) :: rest, es =>
    if callCb && (match e.onEvict with
        | some cb => cb k e.value == false
        | none => false) then
      countClearLoop callCb rest es
    else
      countClearLoop callCb rest (delKey es k)

/-- `FixedCountLFUCache.clear` (lines 322–327).  The entries are deleted with
`delete this.#entries[…]` and `#count` is never adjusted. -/
def FixedCountLFUCache.clear (st : FixedCountLFUCache) (callCb : Bool) :
    FixedCountLFUCache :=
  { st with entries := countClearLoop callCb st.entries st.entries }

/-- `FixedCountLFUCache.getCount` (lines 209–211): returns the `#count`
field, not the number of live entries. -/
def FixedCountLFUCache.getCount (st : FixedCountLFUCache) : Int := st.count

/-- `FixedCountLFUCache.remove` (lines 306–314). -/
def FixedCountLFUCache.remove (st : FixedCountLFUCache) (key : String) :
    Option JSValue × FixedCountLFUCache :=
  match findVal st.entries key with
  | none => (none, st)
  | some e =>
    (some e.value,
      { st with count := st.count - 1, entries := delKey st.entries key })

/-- `FixedSizeLFUCache.remove` (lines 146–154). -/
def FixedSizeLFUCache.remove (st : FixedSizeLFUCache) (key : String) :
    Option JSValue × FixedSizeLFUCache :=
  match findVal st.entries key with
  | none => (none, st)
  | some e =>
    (some e.value,
      { st with size := st.size - e.size, entries := delKey st.entries key })

/-- Sum of the `size` fields of the live `FixedSizeLFUCache` entries:
the quantity `#size` is supposed to track. -/
def sumSizesS (es : List (String × SLfuEntry)) : Int :=
  (es.map (·.2.size)).sum

/-- Sum of `1` per live `FixedCountLFUCache` entry: the quantity `#count`
is supposed to track. -/
def countEntriesC (es : List (String × CLfuEntry)) : Int := (es.length : Int)

/-! ## The LRU caches (lines 347–502 and 513–649)

`FixedSizeLRUCache` and `FixedCountLRUCache` share the identical intrusive
doubly-linked recency list (`#head`/`#tail` plus per-entry `prev`/`next`
key references); they differ only in the ledger (`#size` against `#maxSize`
versus `#count` against `#maxCount`).  Both are modelled on one record:
`maxL`/`ledger` play `#maxSize`/`#size` for the size-bounded class and
`#maxCount`/`#count` for the count-bounded one. -/

/-- An entry of the LRU entry stores (line 352 / 518):
`{value, size, prev, next, onEvict}`.  The count-bounded class stores no
byte size; its entries keep `size = 0`, which nothing ever reads. -/
structure LruEntry where
  value : JSValue
  size : Int
  prev : Option String
  next : Option String
  onEvict : Option Cb

/-- Shared LRU cache state. -/
structure LruCache where
  maxL : Int
  ledger : Int
  head : Option String
  tail : Option String
  entries : List (String × LruEntry)

/-- The key argument the LRU eviction loops pass to callbacks is
`this.#head`, which can be `null`; JS `null` is modelled by the empty
string, which is never a live key. -/
def nullKey : String := ""

/-- `entries[k].next = nx`. -/
def setNext (es : List (String × LruEntry)) (k : String) (nx : Option String) :
    List (String × LruEntry) :=
  modVal es k (fun e => { e with next := nx })

/-- `entries[k].prev = pr`. -/
def setPrev (es : List (String × LruEntry)) (k : String) (pr : Option String) :
    List (String × LruEntry) :=
  modVal es k (fun e => { e with prev := pr })

/-- One eviction of the LRU loops (lines 418–423 / 567–571): credit the
ledger by `debit`, unlink `c` (whose entry is `e`) from its neighbours —
updating `#head`/`#tail` when `c` is an end —, delete it from the entry
store, and re-fix `#head` if it still names `c`. -/
def lruEvictOne (st : LruCache) (c : String) (e : LruEntry) (debit : Int) :
    LruCache :=
  let st1 := { st with ledger := st.ledger - debit }
  let st2 := match e.prev with
    | some p => { st1 with entries := setNext st1.entries p e.next }
    | none => { st1 with head := e.next }
  let st3 := match e.next with
    | some nk => { st2 with entries := setPrev st2.entries nk e.prev }
    | none => { st2 with tail := e.prev }
  let st4 := { st3 with entries := delKey st3.entries c }
  if st4.head = some c then { st4 with head := e.next } else st4

/-- The LRU eviction loop (lines 413–425 / 562–574): starting from `curr`,
while a key is at hand and the cache is still short of room
(`short ledger`), consult the current entry's callback — passing
`this.#head`, not `curr`, as the key argument — and on a non-`false`
return evict it via `lruEvictOne`; in both cases continue at `entry.next`.
`debit e` is `entry.size` for the size-bounded class and `1` for the
count-bounded one.  The fuel argument only bounds the number of
iterations; `put` supplies more fuel than any well-formed list can
consume, so running out of fuel (`noFuel`) means the JS loop would not
have terminated. -/
def lruEvictLoop (short : Int → Bool) (debit : LruEntry → Int) :
    Nat → Option String → LruCache → List Visit →
      Except JSErr (LruCache × List Visit)
  | 0, _, _, _ => .error .noFuel
  | _ + 1, none, st, tr => .ok (st, tr)
  | fuel + 1, some c, st, tr =>
    if short st.ledger then
      match findVal st.entries c with
      | none => .error .typeErr
      | some e =>
        match e.onEvict with
        | some cb =>
          if cb (st.head.getD nullKey) e.value = false then
            lruEvictLoop short debit fuel e.next st
              (tr ++ [.called c (st.head.getD nullKey) e.value
                (cb (st.head.getD nullKey) e.value)])
          else
            lruEvictLoop short debit fuel e.next (lruEvictOne st c e (debit e))
              (tr ++ [.called c (st.head.getD nullKey) e.value
                (cb (st.head.getD nullKey) e.value)])
        | none =>
          lruEvictLoop short debit fuel e.next (lruEvictOne st c e (debit e))
            (tr ++ [.silent c])
    else .ok (st, tr)

/-- Insertion of the new entry at the most-recent end
(lines 430–441 / 578–588): debit the ledger, store the entry with
`prev = #tail`, `next = null`, make it the head if the list was empty,
link the old tail to it, and make it the tail. -/
def lruInsert (st : LruCache) (key : String) (value : JSValue) (sz : Int)
    (cb : Option Cb) (debit : Int) : LruCache :=
  let es1 := setKey st.entries key ⟨value, sz, st.tail, none, cb⟩
  let hd := if st.head = none then some key else st.head
  let es2 := match st.tail with
    | some t => setNext es1 t (some key)
    | none => es1
  { st with
    ledger := st.ledger + debit,
    entries := es2,
    head := hd,
    tail := some key }

/-- `FixedSizeLRUCache.put` (lines 401–442). -/
def FixedSizeLRUCache.put (st : LruCache) (key : String) (value : JSValue)
    (sizeOpt : Option Int) (onEvict : Option Cb) :
    Except JSErr (Bool × LruCache × List Visit) :=
  if key = "" then .error .keyInvalid else
  match resolveSize sizeOpt value with
  | .error err => .error err
  | .ok sz =>
    if sz > st.maxL then .ok (false, st, []) else
    if st.maxL - st.ledger < sz then
      match lruEvictLoop (fun l => decide (st.maxL - l < sz)) (·.size)
          (st.entries.length + 1) st.head st [] with
      | .error err => .error err
      | .ok (st', tr) =>
        if st'.maxL - st'.ledger < sz then .ok (false, st', tr)
        else .ok (true, lruInsert st' key value sz onEvict sz, tr)
    else .ok (true, lruInsert st key value sz onEvict sz, [])

/-- `FixedCountLRUCache.put` (lines 559–590).  There is no byte-size
handling and no absolute-feasibility check; `#count` is incremented even
when `key` was already present. -/
def FixedCountLRUCache.put (st : LruCache) (key : String) (value : JSValue)
    (onEvict : Option Cb) : Except JSErr (Bool × LruCache × List Visit) :=
  if key = "" then .error .keyInvalid else
  if st.ledger ≥ st.maxL then
    match lruEvictLoop (fun l => decide (l ≥ st.maxL)) (fun _ => 1)
        (st.entries.length + 1) st.head st [] with
    | .error err => .error err
    | .ok (st', tr) =>
      if st'.ledger ≥ st'.maxL then .ok (false, st', tr)
      else .ok (true, lruInsert st' key value 0 onEvict 1, tr)
  else .ok (true, lruInsert st key value 0 onEvict 1, [])

/-- The shared LRU `get` (lines 450–461 / 598–609): on a hit, unless the key
is already the tail, unlink it and re-link it at the most-recent end. -/
def LruCache.get (st : LruCache) (key : String) : Option JSValue × LruCache :=
  match findVal st.entries key with
  | none => (none, st)
  | some e =>
    if st.tail = some key then (some e.value, st)
    else
      let st1 := match e.prev with
        | some p => { st with entries := setNext st.entries p e.next }
        | none => { st with head := e.next }
      let st2 := match e.next with
        | some nk => { st1 with entries := setPrev st1.entries nk e.prev }
        | none => { st1 with tail := e.prev }
      let st3 := { st2 with
        entries := setPrev (setNext st2.entries key none) key st2.tail }
      let st4 := match st2.tail with
        | some t => { st3 with entries := setNext st3.entries t (some key) }
        | none => st3
      (some e.value, { st4 with tail := some key })

/-- `setMaxCount` (lines 546–548): update the limit without evicting. -/
def LruCache.setMaxCount (st : LruCache) (m : Int) : LruCache :=
  { st with maxL := m }

/-- Sum of the `size` fields of the live LRU entries. -/
def sumSizesL (es : List (String × LruEntry)) : Int :=
  (es.map (·.2.size)).sum

/-- The recency list as data: `chainB es pr ks tl` says that walking the
`next` references visits exactly the keys `ks`, that the first entry's
`prev` is `pr`, that consecutive entries are doubly linked, and that the
last entry (or `pr` when `ks = []`) is `tl`. -/
def chainB (es : List (String × LruEntry)) :
    Option String → List String → Option String → Bool
  | pr, [], tl => tl == pr
  | pr, k :: ks, tl =>
    match findVal es k with
    | none => false
    | some e => e.prev == pr && e.next == ks.head? && chainB es (some k) ks tl

/-- Well-formedness of an LRU cache state: some duplicate-free key list `ks`
is chained from `#head` (with `prev = null` at the front) down to `#tail`,
and the live keys are exactly `ks`. -/
def LruWf (st : LruCache) (ks : List String) : Prop :=
  chainB st.entries none ks st.tail = true ∧ st.head = ks.head? ∧
    ks.Nodup ∧ List.Perm (keysOf st.entries) ks

/-! ## Association-list lemmas -/

theorem findVal_setKey_self (es : List (String × α)) (k : String) (v : α) :
    findVal (setKey es k v) k = some v := by
  induction es with
  | nil => simp [setKey, findVal]
  | cons p rest ih =>
    obtain ⟨k', v'⟩ := p
    by_cases h : k' = k
    · simp [setKey, h, findVal]
    · simp [setKey, h, findVal, ih]

theorem findVal_setKey_ne (es : List (String × α)) (k k' : String) (v : α)
    (h : k ≠ k') : findVal (setKey es k v) k' = findVal es k' := by
  induction es with
  | nil => simp [setKey, findVal, h]
  | cons p rest ih =>
    obtain ⟨k₀, v₀⟩ := p
    by_cases h₀ : k₀ = k
    · subst h₀; simp [setKey, findVal, h]
    · simp [setKey, h₀, findVal, ih]

theorem findVal_delKey_ne (es : List (String × α)) (k k' : String)
    (h : k ≠ k') : findVal (delKey es k) k' = findVal es k' := by
  induction es with
  | nil => simp [delKey]
  | cons p rest ih =>
    obtain ⟨k₀, v₀⟩ := p
    by_cases h₀ : k₀ = k
    · subst h₀; simp [delKey, findVal, h]
    · simp [delKey, h₀, findVal, ih]

theorem findVal_modVal_ne (es : List (String × α)) (k k' : String)
    (f : α → α) (h : k ≠ k') : findVal (modVal es k f) k' = findVal es k' := by
  induction es with
  | nil => simp [modVal]
  | cons p rest ih =>
    obtain ⟨k₀, v₀⟩ := p
    by_cases h₀ : k₀ = k
    · subst h₀; simp [modVal, findVal, h, ih]
    · simp [modVal, h₀, findVal, ih]

theorem findVal_modVal_self (es : List (String × α)) (k : String)
    (f : α → α) : findVal (modVal es k f) k = (findVal es k).map f := by
  induction es with
  | nil => simp [modVal, findVal]
  | cons p rest ih =>
    obtain ⟨k₀, v₀⟩ := p
    by_cases h₀ : k₀ = k
    · subst h₀; simp [modVal, findVal]
    · simp [modVal, h₀, findVal, ih]

theorem keysOf_modVal (es : List (String × α)) (k : String) (f : α → α) :
    keysOf (modVal es k f) = keysOf es := by
  induction es with
  | nil => simp [modVal]
  | cons p rest ih =>
    obtain ⟨k₀, v₀⟩ := p
    by_cases h₀ : k₀ = k <;> simp [modVal, h₀, keysOf] at ih ⊢ <;> exact ih

theorem keysOf_delKey (es : List (String × α)) (k : String) :
    keysOf (delKey es k) = (keysOf es).erase k := by
  induction es with
  | nil => simp [delKey, keysOf]
  | cons p rest ih =>
    obtain ⟨k₀, v₀⟩ := p
    by_cases h₀ : k₀ = k
    · subst h₀; simp [delKey, keysOf, List.erase_cons_head]
    · simp only [delKey, if_neg h₀, keysOf, List.map_cons]
      rw [List.erase_cons_tail]
      · exact congrArg (k₀ :: ·) ih
      · simp [h₀]

theorem mem_of_mem_delKey {es : List (String × α)} {k : String}
    {p : String × α} (h : p ∈ delKey es k) : p ∈ es := by
  induction es with
  | nil => simpa [delKey] using h
  | cons q rest ih =>
    obtain ⟨k₀, v₀⟩ := q
    by_cases h₀ : k₀ = k
    · subst h₀; simp only [delKey, if_pos rfl] at h; exact List.mem_cons_of_mem _ h
    · simp only [delKey, if_neg h₀, List.mem_cons] at h
      rcases h with h | h
      · exact h ▸ List.mem_cons_self _ _
      · exact List.mem_cons_of_mem _ (ih h)

theorem findVal_of_mem_nodup {es : List (String × α)} {k : String} {v : α}
    (hmem : (k, v) ∈ es) (hnd : (keysOf es).Nodup) : findVal es k = some v := by
  induction es with
  | nil => simp at hmem
  | cons p rest ih =>
    obtain ⟨k₀, v₀⟩ := p
    simp only [keysOf, List.map_cons, List.nodup_cons] at hnd
    rcases List.mem_cons.mp hmem with h | h
    · injection h with h1 h2
      subst h1; subst h2
      simp [findVal]
    · by_cases h₀ : k₀ = k
      · subst h₀
        exact absurd (List.mem_map_of_mem (·.1) h) (by simpa [keysOf] using hnd.1)
      · simpa [findVal, h₀] using ih h (by simpa [keysOf] using hnd.2)

theorem mem_of_findVal {es : List (String × α)} {k : String} {v : α}
    (h : findVal es k = some v) : (k, v) ∈ es := by
  induction es with
  | nil => simp [findVal] at h
  | cons p rest ih =>
    obtain ⟨k₀, v₀⟩ := p
    by_cases h₀ : k₀ = k
    · subst h₀
      simp only [findVal, if_true, eq_self_iff_true, Option.some.injEq] at h
      subst h
      exact List.mem_cons_self _ _
    · simp only [findVal, if_neg h₀] at h
      exact List.mem_cons_of_mem _ (ih h)

theorem findVal_isSome_of_mem_keys {es : List (String × α)} {k : String}
    (h : k ∈ keysOf es) : ∃ v, findVal es k = some v := by
  induction es with
  | nil => simp [keysOf] at h
  | cons p rest ih =>
    obtain ⟨k₀, v₀⟩ := p
    by_cases h₀ : k₀ = k
    · exact ⟨v₀, by simp [findVal, h₀]⟩
    · simp only [keysOf, List.map_cons, List.mem_cons] at h
      rcases h with h | h
      · exact absurd h.symm h₀
      · simpa [findVal, h₀] using ih h

/-- Total cost of the live entries, for an arbitrary per-entry cost. -/
def sumCost (cost : α → Int) (es : List (String × α)) : Int :=
  (es.map (fun p => cost p.2)).sum

theorem sumCost_cons (cost : α → Int) (p : String × α)
    (es : List (String × α)) :
    sumCost cost (p :: es) = cost p.2 + sumCost cost es := by
  simp [sumCost]

theorem sumCost_delKey (cost : α → Int) {es : List (String × α)} {k : String}
    {v : α} (h : findVal es k = some v) :
    sumCost cost (delKey es k) = sumCost cost es - cost v := by
  induction es with
  | nil => simp [findVal] at h
  | cons p rest ih =>
    obtain ⟨k₀, v₀⟩ := p
    by_cases h₀ : k₀ = k
    · subst h₀
      simp only [findVal, if_true, eq_self_iff_true, Option.some.injEq] at h
      subst h
      simp [delKey, sumCost]
    · simp only [findVal, if_neg h₀] at h
      simp only [delKey, if_neg h₀, sumCost_cons, ih h]
      ring

theorem sumCost_nonneg (cost : α → Int) {es : List (String × α)}
    (h : ∀ p ∈ es, 0 ≤ cost p.2) : 0 ≤ sumCost cost es := by
  refine List.sum_nonneg ?_
  intro x hx
  obtain ⟨p, hp, rfl⟩ := List.mem_map.mp hx
  exact h p hp

theorem findVal_mapSnd (es : List (String × α)) (f : α → α) (k : String) :
    findVal (es.map (fun p => (p.1, f p.2))) k = (findVal es k).map f := by
  induction es with
  | nil => simp [findVal]
  | cons p rest ih =>
    obtain ⟨k₀, v₀⟩ := p
    by_cases h₀ : k₀ = k <;> simp [findVal, h₀, ih]

theorem keysOf_mapSnd (es : List (String × α)) (f : α → α) :
    keysOf (es.map (fun p => (p.1, f p.2))) = keysOf es := by
  simp [keysOf, List.map_map, Function.comp_def]

theorem sumCost_mapSnd (cost : α → Int) (es : List (String × α)) (f : α → α)
    (h : ∀ a, cost (f a) = cost a) :
    sumCost cost (es.map (fun p => (p.1, f p.2))) = sumCost cost es := by
  simp [sumCost, List.map_map, Function.comp_def, h]

/-- The visits of one LFU eviction pass walk an initial segment of the
snapshot, in order: the trace grows by visits whose candidates are the
first few snapshot keys. -/
theorem lfuEvictPass_trace (short : Int → Bool) (cost : α → Int)
    (getCb : α → Option Cb) (getVal : α → JSValue) :
    ∀ (snap : List (String × α)) (ledger : Int) (es : List (String × α))
      (tr : List Visit),
      ∃ Δ rest,
        (lfuEvictPass short cost getCb getVal snap ledger es tr).2.2 =
          tr ++ Δ ∧
        keysOf snap = Δ.map Visit.cand ++ rest := by
  intro snap
  induction snap with
  | nil => exact fun ledger es tr => ⟨[], [], by simp [lfuEvictPass], by simp [keysOf]⟩
  | cons p rest ih =>
    obtain ⟨k, e⟩ := p
    intro ledger es tr
    by_cases hs : short ledger
    · match hcb : getCb e with
      | some cb =>
        cases hv : cb k (getVal e) with
        | false =>
          obtain ⟨Δ, r, h1, h2⟩ := ih ledger es
            (tr ++ [.called k k (getVal e) false])
          refine ⟨.called k k (getVal e) false :: Δ, r, ?_, ?_⟩
          · simpa [lfuEvictPass, hs, hcb, hv] using h1
          · simp [keysOf] at h2 ⊢; simpa [Visit.cand] using h2
        | true =>
          obtain ⟨Δ, r, h1, h2⟩ := ih (ledger - cost e) (delKey es k)
            (tr ++ [.called k k (getVal e) true])
          refine ⟨.called k k (getVal e) true :: Δ, r, ?_, ?_⟩
          · simpa [lfuEvictPass, hs, hcb, hv] using h1
          · simp [keysOf] at h2 ⊢; simpa [Visit.cand] using h2
      | none =>
        obtain ⟨Δ, r, h1, h2⟩ := ih (ledger - cost e) (delKey es k)
          (tr ++ [.silent k])
        exact ⟨.silent k :: Δ, r,
          by simp [lfuEvictPass, hs, hcb, h1],
          by simp [keysOf] at h2 ⊢; simpa [Visit.cand] using h2⟩
    · exact ⟨[], keysOf ((k, e) :: rest),
        by simp [lfuEvictPass, hs], by simp⟩

/-- An entry every snapshot occurrence of which vetoes survives the LFU
eviction pass with its stored record untouched. -/
theorem lfuEvictPass_preserve (short : Int → Bool) (cost : α → Int)
    (getCb : α → Option Cb) (getVal : α → JSValue) (k0 : String) :
    ∀ (snap : List (String × α)) (ledger : Int) (es : List (String × α))
      (tr : List Visit),
      (∀ e' , (k0, e') ∈ snap →
        ∃ cb, getCb e' = some cb ∧ cb k0 (getVal e') = false) →
      findVal (lfuEvictPass short cost getCb getVal snap ledger es tr).2.1 k0 =
        findVal es k0 := by
  intro snap
  induction snap with
  | nil => intro ledger es tr _; simp [lfuEvictPass]
  | cons p rest ih =>
    obtain ⟨k, e⟩ := p
    intro ledger es tr hVeto
    by_cases hs : short ledger
    · by_cases hk : k = k0
      · subst hk
        obtain ⟨cb, hcb, hfalse⟩ := hVeto e (List.mem_cons_self _ _)
        simp only [lfuEvictPass, hs, if_true, hcb, hfalse, if_pos rfl]
        exact ih ledger es _ (fun e' h => hVeto e' (List.mem_cons_of_mem _ h))
      · match hcb : getCb e with
        | some cb =>
          by_cases hv : cb k (getVal e) = false
          · simp only [lfuEvictPass, hs, if_true, hcb, hv, if_pos rfl]
            exact ih ledger es _ (fun e' h => hVeto e' (List.mem_cons_of_mem _ h))
          · simp only [lfuEvictPass, hs, if_true, hcb, if_neg hv]
            rw [ih (ledger - cost e) (delKey es k) _
              (fun e' h => hVeto e' (List.mem_cons_of_mem _ h))]
            exact findVal_delKey_ne es k k0 hk
        | none =>
          simp only [lfuEvictPass, hs, if_true, hcb]
          rw [ih (ledger - cost e) (delKey es k) _
            (fun e' h => hVeto e' (List.mem_cons_of_mem _ h))]
          exact findVal_delKey_ne es k k0 hk
    · simp only [lfuEvictPass, hs, if_false]
      rfl

/-- When no snapshot entry carries a callback, the LFU eviction pass keeps
the ledger equal to the total cost of the live entries and stops only once
the shortfall test fails or the store is empty. -/
theorem lfuEvictPass_drain (short : Int → Bool) (cost : α → Int)
    (getCb : α → Option Cb) (getVal : α → JSValue) :
    ∀ (snap : List (String × α)) (ledger : Int) (es : List (String × α))
      (tr : List Visit),
      (∀ p ∈ snap, getCb p.2 = none) →
      (∀ p ∈ snap, findVal es p.1 = some p.2) →
      (keysOf snap).Nodup →
      (keysOf es).Nodup →
      ledger = sumCost cost es →
      (∀ p ∈ es, 0 ≤ cost p.2) →
      (∀ p ∈ es, p.1 ∈ keysOf snap) →
      (lfuEvictPass short cost getCb getVal snap ledger es tr).1 =
          sumCost cost
            (lfuEvictPass short cost getCb getVal snap ledger es tr).2.1 ∧
        (∀ p ∈ (lfuEvictPass short cost getCb getVal snap ledger es tr).2.1,
          0 ≤ cost p.2) ∧
        (short (lfuEvictPass short cost getCb getVal snap ledger es tr).1 =
            false ∨
          (lfuEvictPass short cost getCb getVal snap ledger es tr).2.1 = []) := by
  intro snap
  induction snap with
  | nil =>
    intro ledger es tr _ _ _ _ hAcc hPos hCover
    have hes : es = [] := by
      cases es with
      | nil => rfl
      | cons p rest => exact absurd (hCover p (List.mem_cons_self _ _)) (by simp [keysOf])
    subst hes
    exact ⟨by simpa [lfuEvictPass] using hAcc, by simp [lfuEvictPass],
      Or.inr (by simp [lfuEvictPass])⟩
  | cons p rest ih =>
    obtain ⟨k, e⟩ := p
    intro ledger es tr hCb hSub hNdS hNdE hAcc hPos hCover
    by_cases hs : short ledger
    · have hcb : getCb e = none := hCb (k, e) (List.mem_cons_self _ _)
      have hfv : findVal es k = some e := hSub (k, e) (List.mem_cons_self _ _)
      simp only [lfuEvictPass, hs, if_true, hcb]
      have hndS' : (keysOf rest).Nodup := by
        simpa [keysOf] using (List.nodup_cons.mp (by simpa [keysOf] using hNdS)).2
      have hkS : k ∉ keysOf rest :=
        (List.nodup_cons.mp (by simpa [keysOf] using hNdS)).1
      refine ih (ledger - cost e) (delKey es k) (tr ++ [.silent k])
        (fun q hq => hCb q (List.mem_cons_of_mem _ hq))
        (fun q hq => ?_) hndS'
        (by rw [keysOf_delKey]; exact hNdE.erase k)
        (by rw [sumCost_delKey cost hfv, hAcc])
        (fun q hq => hPos q (mem_of_mem_delKey hq))
        (fun q hq => ?_)
      · have hne : k ≠ q.1 := fun h => hkS (h ▸ List.mem_map_of_mem (·.1) hq)
        rw [findVal_delKey_ne es k q.1 hne]
        exact hSub q (List.mem_cons_of_mem _ hq)
      · have hqk : q.1 ∈ (keysOf es).erase k := by
          rw [← keysOf_delKey]; exact List.mem_map_of_mem (·.1) hq
        have := (List.Nodup.mem_erase_iff hNdE).mp hqk
        have hmem : q.1 ∈ keysOf ((k, e) :: rest) :=
          hCover q (mem_of_mem_delKey hq)
        simp only [keysOf, List.map_cons, List.mem_cons] at hmem
        rcases hmem with h | h
        · exact absurd h this.1
        · exact h
    · simp only [lfuEvictPass, hs, if_false]
      exact ⟨hAcc, hPos, Or.inl (by simpa using hs)⟩

/-! ## LRU linked-list lemmas -/

theorem findVal_setNext_ne (es : List (String × LruEntry)) (k x : String)
    (nx : Option String) (h : k ≠ x) :
    findVal (setNext es k nx) x = findVal es x :=
  findVal_modVal_ne es k x _ h

theorem findVal_setPrev_ne (es : List (String × LruEntry)) (k x : String)
    (pr : Option String) (h : k ≠ x) :
    findVal (setPrev es k pr) x = findVal es x :=
  findVal_modVal_ne es k x _ h

theorem findVal_setNext_self (es : List (String × LruEntry)) (k : String)
    (nx : Option String) :
    findVal (setNext es k nx) k =
      (findVal es k).map (fun a => { a with next := nx }) :=
  findVal_modVal_self es k _

theorem findVal_setPrev_self (es : List (String × LruEntry)) (k : String)
    (pr : Option String) :
    findVal (setPrev es k pr) k =
      (findVal es k).map (fun a => { a with prev := pr }) :=
  findVal_modVal_self es k _

theorem lruEvictOne_ledger (st : LruCache) (c : String) (e : LruEntry)
    (d : Int) : (lruEvictOne st c e d).ledger = st.ledger - d := by
  unfold lruEvictOne
  cases e.prev <;> cases e.next <;> dsimp <;> (try split) <;> rfl

theorem keysOf_lruEvictOne (st : LruCache) (c : String) (e : LruEntry)
    (d : Int) :
    keysOf (lruEvictOne st c e d).entries = (keysOf st.entries).erase c := by
  unfold lruEvictOne
  cases e.prev <;> cases e.next <;> dsimp <;> (try split) <;>
    simp [keysOf_delKey, setNext, setPrev, keysOf_modVal]

theorem lruEvictOne_findVal_untouched (st : LruCache) (c : String)
    (e : LruEntry) (d : Int) (x : String) (hxc : x ≠ c)
    (hp : e.prev ≠ some x) (hn : e.next ≠ some x) :
    findVal (lruEvictOne st c e d).entries x = findVal st.entries x := by
  unfold lruEvictOne
  cases hep : e.prev with
  | none =>
    cases hen : e.next with
    | none =>
      dsimp
      (try split) <;> exact findVal_delKey_ne _ _ _ (Ne.symm hxc)
    | some nk =>
      have hnx : nk ≠ x := fun h => hn (by rw [hen, h])
      dsimp
      (try split) <;>
        rw [findVal_delKey_ne _ _ _ (Ne.symm hxc), findVal_setPrev_ne _ _ _ _ hnx]
  | some p =>
    have hpx : p ≠ x := fun h => hp (by rw [hep, h])
    cases hen : e.next with
    | none =>
      dsimp
      (try split) <;>
        rw [findVal_delKey_ne _ _ _ (Ne.symm hxc), findVal_setNext_ne _ _ _ _ hpx]
    | some nk =>
      have hnx : nk ≠ x := fun h => hn (by rw [hen, h])
      dsimp
      (try split) <;>
        rw [findVal_delKey_ne _ _ _ (Ne.symm hxc),
          findVal_setPrev_ne _ _ _ _ hnx, findVal_setNext_ne _ _ _ _ hpx]

theorem lruEvictOne_findVal_prevNode (st : LruCache) (c : String)
    (e : LruEntry) (d : Int) (x : String) (hxc : x ≠ c)
    (hp : e.prev = some x) (hn : e.next ≠ some x) :
    findVal (lruEvictOne st c e d).entries x =
      (findVal st.entries x).map (fun a => { a with next := e.next }) := by
  unfold lruEvictOne
  rw [hp]
  cases hen : e.next with
  | none =>
    dsimp
    (try split) <;>
      rw [findVal_delKey_ne _ _ _ (Ne.symm hxc), findVal_setNext_self]
  | some nk =>
    have hnx : nk ≠ x := fun h => hn (by rw [hen, h])
    dsimp
    (try split) <;>
      rw [findVal_delKey_ne _ _ _ (Ne.symm hxc),
        findVal_setPrev_ne _ _ _ _ hnx, findVal_setNext_self]

theorem lruEvictOne_findVal_nextNode (st : LruCache) (c : String)
    (e : LruEntry) (d : Int) (x : String) (hxc : x ≠ c)
    (hp : e.prev ≠ some x) (hn : e.next = some x) :
    findVal (lruEvictOne st c e d).entries x =
      (findVal st.entries x).map (fun a => { a with prev := e.prev }) := by
  unfold lruEvictOne
  rw [hn]
  cases hep : e.prev with
  | none =>
    dsimp
    (try split) <;>
      rw [findVal_delKey_ne _ _ _ (Ne.symm hxc), findVal_setPrev_self]
  | some p =>
    have hpx : p ≠ x := fun h => hp (by rw [hep, h])
    dsimp
    (try split) <;>
      rw [findVal_delKey_ne _ _ _ (Ne.symm hxc), findVal_setPrev_self,
        findVal_setNext_ne _ _ _ _ hpx]

/-- Reads along unchanged keys give unchanged chain checks. -/
theorem chainB_ext {es es' : List (String × LruEntry)} :
    ∀ (ks : List String) (pr tl : Option String),
      (∀ x ∈ ks, findVal es' x = findVal es x) →
      chainB es' pr ks tl = chainB es pr ks tl := by
  intro ks
  induction ks with
  | nil => intro pr tl _; rfl
  | cons k ks ih =>
    intro pr tl h
    simp only [chainB, h k (List.mem_cons_self _ _),
      ih (some k) tl (fun x hx => h x (List.mem_cons_of_mem _ hx))]

theorem lruEvictOne_tail_noNext (st : LruCache) (c : String) (e : LruEntry)
    (d : Int) (h : e.next = none) :
    (lruEvictOne st c e d).tail = e.prev := by
  unfold lruEvictOne
  rw [h]
  cases e.prev <;> dsimp <;> (try split) <;> rfl

theorem lruEvictOne_tail_next (st : LruCache) (c : String) (e : LruEntry)
    (d : Int) (j : String) (h : e.next = some j) :
    (lruEvictOne st c e d).tail = st.tail := by
  unfold lruEvictOne
  rw [h]
  cases e.prev <;> dsimp <;> (try split) <;> rfl

theorem lruEvictOne_head_noPrev (st : LruCache) (c : String) (e : LruEntry)
    (d : Int) (hp : e.prev = none) (hne : e.next ≠ some c) :
    (lruEvictOne st c e d).head = e.next := by
  unfold lruEvictOne
  rw [hp]
  cases hen : e.next <;> dsimp <;> (try split) <;> simp_all

theorem lruEvictOne_head_prev (st : LruCache) (c : String) (e : LruEntry)
    (d : Int) (p : String) (hp : e.prev = some p) (hhc : st.head ≠ some c) :
    (lruEvictOne st c e d).head = st.head := by
  unfold lruEvictOne
  rw [hp]
  cases hen : e.next <;> dsimp <;> (try split) <;> simp_all

/-- Rebuilding the part of the recency chain that follows the evicted key:
with `c` unlinked, the keys after it are chained from `c`'s predecessor. -/
theorem chainB_afterC (st : LruCache) (c : String) (e : LruEntry) (d : Int) :
    ∀ (S' : List String),
      c ∉ S' → S'.Nodup → e.next = S'.head? →
      (∀ x ∈ S', e.prev ≠ some x) →
      chainB st.entries (some c) S' st.tail = true →
      chainB (lruEvictOne st c e d).entries e.prev S'
        (lruEvictOne st c e d).tail = true := by
  intro S'
  cases S' with
  | nil =>
    intro _ _ hnext _ _
    simp [chainB, lruEvictOne_tail_noNext st c e d (by simpa using hnext)]
  | cons j S'' =>
    intro hcS hndS hnext hprS hch
    have hjc : j ≠ c := fun h => hcS (h ▸ List.mem_cons_self _ _)
    have hje : e.next = some j := by simpa using hnext
    cases hfvj : findVal st.entries j with
    | none => simp [chainB, hfvj] at hch
    | some ej =>
      simp only [chainB, hfvj, Bool.and_eq_true, beq_iff_eq] at hch
      obtain ⟨⟨hjp, hjn⟩, hchrest⟩ := hch
      rw [lruEvictOne_tail_next st c e d j hje]
      simp only [chainB,
        lruEvictOne_findVal_nextNode st c e d j hjc
          (hprS j (List.mem_cons_self _ _)) hje,
        hfvj, Option.map_some]
      refine (Bool.and_eq_true _ _).mpr ⟨(Bool.and_eq_true _ _).mpr ⟨?_, ?_⟩, ?_⟩
      · exact beq_self_eq_true _
      · simpa using hjn
      · rw [chainB_ext S'' (some j) st.tail ?_]
        · exact hchrest
        · intro x hx
          have hxc : x ≠ c := fun h => hcS (h ▸ List.mem_cons_of_mem _ hx)
          have hxj : j ≠ x := fun h =>
            (List.nodup_cons.mp hndS).1 (h ▸ hx)
          exact lruEvictOne_findVal_untouched st c e d x hxc
            (hprS x (List.mem_cons_of_mem _ hx))
            (fun h => hxj (by
              have := hje.symm.trans h
              simpa using this))

theorem chainB_cons_elim {es : List (String × LruEntry)} {pr tl : Option String}
    {k : String} {ks : List String}
    (h : chainB es pr (k :: ks) tl = true) :
    ∃ e, findVal es k = some e ∧ e.prev = pr ∧ e.next = ks.head? ∧
      chainB es (some k) ks tl = true := by
  cases hfv : findVal es k with
  | none => simp [chainB, hfv] at h
  | some e =>
    simp only [chainB, hfv, Bool.and_eq_true, beq_iff_eq] at h
    exact ⟨e, rfl, h.1.1, h.1.2, h.2⟩

theorem chainB_cons_intro {es : List (String × LruEntry)}
    {pr tl : Option String} {k : String} {ks : List String} {e : LruEntry}
    (hfv : findVal es k = some e) (h1 : e.prev = pr) (h2 : e.next = ks.head?)
    (h3 : chainB es (some k) ks tl = true) :
    chainB es pr (k :: ks) tl = true := by
  simp [chainB, hfv, h1, h2, h3]

/-- The key one step before the end of a walked-over segment. -/
def lastOr : List String → Option String → Option String
  | [], pr => pr
  | v :: V, _ => lastOr V (some v)

theorem lastOr_mem : ∀ (A : List String) (pr : Option String),
    A ≠ [] → ∃ y ∈ A, lastOr A pr = some y := by
  intro A
  induction A with
  | nil => intro _ h; exact absurd rfl h
  | cons v V ih =>
    intro pr _
    cases V with
    | nil => exact ⟨v, List.mem_cons_self _ _, rfl⟩
    | cons w V' =>
      obtain ⟨y, hy, hl⟩ := ih (some v) (by simp)
      exact ⟨y, List.mem_cons_of_mem _ hy, hl⟩

/-- The doubly-linked pointers of a key in the middle of a chain. -/
theorem chainB_mid {es : List (String × LruEntry)} {c : String}
    {B : List String} {tl : Option String} :
    ∀ (A : List String) (pr : Option String),
      chainB es pr (A ++ c :: B) tl = true →
      ∃ ec, findVal es c = some ec ∧ ec.prev = lastOr A pr ∧
        ec.next = B.head? := by
  intro A
  induction A with
  | nil =>
    intro pr h
    obtain ⟨ec, hfv, h1, h2, _⟩ := chainB_cons_elim h
    exact ⟨ec, hfv, h1, h2⟩
  | cons a A' ih =>
    intro pr h
    obtain ⟨ea, _, _, _, hrest⟩ := chainB_cons_elim (by simpa using h)
    simpa [lastOr] using ih (some a) hrest

/-- Unlinking an evicted key `c` turns a chain over `V ++ c :: S'` into a
chain over `V ++ S'`. -/
theorem chainB_relink (st : LruCache) (c : String) (e : LruEntry) (d : Int)
    (hfv : findVal st.entries c = some e) :
    ∀ (V S' : List String) (pr : Option String),
      chainB st.entries pr (V ++ c :: S') st.tail = true →
      (V ++ c :: S').Nodup →
      (∀ x, pr = some x → x ∉ V ++ c :: S') →
      chainB (lruEvictOne st c e d).entries pr (V ++ S')
        (lruEvictOne st c e d).tail = true := by
  intro V
  induction V with
  | nil =>
    intro S' pr hch hnd hpr
    obtain ⟨ec, hfvc, hcp, hcn, hrest⟩ := chainB_cons_elim (by simpa using hch)
    rw [hfv] at hfvc
    injection hfvc with hfvc
    subst hfvc
    have hgoal := chainB_afterC st c e d S'
      (by simpa using (List.nodup_cons.mp (by simpa using hnd)).1)
      ((List.nodup_cons.mp (by simpa using hnd)).2)
      hcn
      (fun x hx h => by
        rw [hcp] at h
        exact hpr x h (List.mem_cons_of_mem _ hx))
      hrest
    rw [hcp] at hgoal
    simpa using hgoal
  | cons v V' ih =>
    intro S' pr hch hnd hpr
    obtain ⟨ev, hfvv, hvp, hvn, hrest⟩ := chainB_cons_elim (by simpa using hch)
    have hndtail : (V' ++ c :: S').Nodup :=
      (List.nodup_cons.mp (by simpa using hnd)).2
    have hvnotin : v ∉ V' ++ c :: S' :=
      (List.nodup_cons.mp (by simpa using hnd)).1
    have hvc : v ≠ c := fun h => hvnotin (by simp [h])
    cases V' with
    | nil =>
      obtain ⟨ec, hfvc, hcp, hcn, hS⟩ := chainB_cons_elim (by simpa using hrest)
      rw [hfv] at hfvc
      injection hfvc with hfvc
      subst hfvc
      have hvS : v ∉ S' := fun h => hvnotin (by simp [h])
      have hcS : c ∉ S' :=
        fun h => (List.nodup_cons.mp (by simpa using hndtail)).1 h
      have hnv : e.next ≠ some v := fun h => by
        rw [hcn] at h
        rcases S' with _ | ⟨j, S''⟩
        · simp at h
        · simp only [List.head?_cons, Option.some.injEq] at h
          exact hvS (by rw [← h]; exact List.mem_cons_self _ _)
      have hfv5 : findVal (lruEvictOne st c e d).entries v =
          some { ev with next := e.next } := by
        rw [lruEvictOne_findVal_prevNode st c e d v hvc hcp hnv, hfvv]
        rfl
      refine chainB_cons_intro hfv5 hvp ?_ ?_
      · simpa using hcn
      · have := chainB_afterC st c e d S' hcS
          ((List.nodup_cons.mp (by simpa using hndtail)).2)
          hcn (fun x hx h => by
            rw [hcp] at h
            injection h with h
            exact hvS (h ▸ hx)) hS
        rw [hcp] at this
        simpa using this
    | cons w V'' =>
      obtain ⟨ec, hfvc, hcp, hcn⟩ := chainB_mid (w :: V'') (some v) hrest
      rw [hfv] at hfvc
      injection hfvc with hfvc
      subst hfvc
      obtain ⟨y, hy, hlast⟩ := lastOr_mem (w :: V'') (some v) (by simp)
      have hyv : y ≠ v := fun h =>
        hvnotin (List.mem_append.mpr (Or.inl (h ▸ hy)))
      have hvS' : v ∉ S' := fun h => hvnotin (by simp [h])
      have hfv5 : findVal (lruEvictOne st c e d).entries v = some ev :=
        (lruEvictOne_findVal_untouched st c e d v hvc
          (fun h => by
            rw [hcp, hlast] at h
            injection h with h
            exact hyv h)
          (fun h => by
            rw [hcn] at h
            rcases S' with _ | ⟨j, S''⟩
            · simp at h
            · simp only [List.head?_cons, Option.some.injEq] at h
              exact hvS' (by rw [← h]; exact List.mem_cons_self _ _))).trans hfvv
      refine chainB_cons_intro hfv5 hvp (by simpa using hvn) ?_
      have := ih S' (some v) hrest hndtail
        (fun x hx => by
          injection hx with hx
          exact hx ▸ hvnotin)
      simpa using this

/-- On a well-formed recency list the LRU eviction loop terminates
successfully and visits each key of the remaining segment at most once, in
order: the new visits' candidates form a sublist of the segment.  `V` is the
already-passed (vetoed) part of the chain, `S` the part still ahead. -/
theorem lruEvictLoop_master (short : Int → Bool) (debit : LruEntry → Int) :
    ∀ (S V : List String) (fuel : Nat) (st : LruCache) (tr0 : List Visit),
      chainB st.entries none (V ++ S) st.tail = true →
      st.head = (V ++ S).head? →
      (V ++ S).Nodup →
      List.Perm (keysOf st.entries) (V ++ S) →
      S.length + 1 ≤ fuel →
      ∃ st' Δ,
        lruEvictLoop short debit fuel S.head? st tr0 = .ok (st', tr0 ++ Δ) ∧
          List.Sublist (Δ.map Visit.cand) S := by
  intro S
  induction S with
  | nil =>
    intro V fuel st tr0 _ _ _ _ hfuel
    cases fuel with
    | zero => omega
    | succ f =>
      exact ⟨st, [], by simp [lruEvictLoop], List.nil_sublist _⟩
  | cons c S' ih =>
    intro V fuel st tr0 hch hhd hnd hperm hfuel
    cases fuel with
    | zero => simp at hfuel
    | succ f =>
      have hf : S'.length + 1 ≤ f := by simpa using hfuel
      by_cases hs : short st.ledger
      · obtain ⟨ec, hfvc, hcp, hcn⟩ := chainB_mid V none hch
        have hndparts := List.nodup_append.mp hnd
        have hcnotS : c ∉ S' := (List.nodup_cons.mp hndparts.2.1).1
        have hcnotV : c ∉ V := fun hcv =>
          hndparts.2.2 hcv (List.mem_cons_self _ _)
        have hnext_ne_c : ec.next ≠ some c := fun h => by
          rw [hcn] at h
          rcases S' with _ | ⟨j, S''⟩
          · simp at h
          · simp only [List.head?_cons, Option.some.injEq] at h
            exact hcnotS (List.mem_cons.mpr (Or.inl h.symm))
        have hhead5 : ∀ d, (lruEvictOne st c ec d).head = (V ++ S').head? := by
          intro d
          cases V with
          | nil =>
            have hpn : ec.prev = none := by simpa [lastOr] using hcp
            rw [lruEvictOne_head_noPrev st c ec d hpn hnext_ne_c, hcn]
            simp
          | cons v Vr =>
            obtain ⟨y, hy, hl⟩ := lastOr_mem (v :: Vr) none (by simp)
            have hpy : ec.prev = some y := by rw [hcp, hl]
            have hvc2 : st.head ≠ some c := by
              rw [hhd]
              simp only [List.cons_append, List.head?_cons, ne_eq,
                Option.some.injEq]
              exact fun h => hcnotV (h ▸ List.mem_cons_self _ _)
            rw [lruEvictOne_head_prev st c ec d y hpy hvc2, hhd]
            simp
        have hch_shift : chainB st.entries none ((V ++ [c]) ++ S') st.tail =
            true := by
          rw [List.append_assoc]
          simpa using hch
        have hstep_wf : ∀ d,
            chainB (lruEvictOne st c ec d).entries none (V ++ S')
                (lruEvictOne st c ec d).tail = true ∧
              (V ++ S').Nodup ∧
              List.Perm (keysOf (lruEvictOne st c ec d).entries) (V ++ S') := by
          intro d
          refine ⟨chainB_relink st c ec d hfvc V S' none hch hnd
            (fun x hx => by simp at hx), ?_, ?_⟩
          · exact hnd.sublist
              (List.Sublist.append_left (List.sublist_cons_self c S') V)
          · rw [keysOf_lruEvictOne]
            have h1 : ((keysOf st.entries).erase c).Perm
                ((V ++ c :: S').erase c) := hperm.erase c
            have h2 : (V ++ c :: S').erase c = V ++ S' := by
              rw [List.erase_append_right _ hcnotV, List.erase_cons_head]
            rwa [h2] at h1
        cases hcb : ec.onEvict with
        | some cb =>
          cases hv : cb (st.head.getD nullKey) ec.value with
          | false =>
            obtain ⟨st', Δ', heq, hsub⟩ := ih (V ++ [c]) f st
              (tr0 ++ [.called c (st.head.getD nullKey) ec.value false])
              hch_shift (by simpa using hhd) (by simpa using hnd)
              (by simpa using hperm) hf
            refine ⟨st',
              .called c (st.head.getD nullKey) ec.value false :: Δ', ?_, ?_⟩
            · have hstep : lruEvictLoop short debit (f + 1) (some c) st tr0 =
                  lruEvictLoop short debit f ec.next st
                    (tr0 ++ [.called c (st.head.getD nullKey) ec.value false]) := by
                simp [lruEvictLoop, hs, hfvc, hcb, hv]
              rw [List.head?_cons, hstep, hcn, heq]
              simp
            · exact List.Sublist.cons₂ c hsub
          | true =>
            obtain ⟨hch5, hnd5, hperm5⟩ := hstep_wf (debit ec)
            obtain ⟨st', Δ', heq, hsub⟩ := ih V f (lruEvictOne st c ec (debit ec))
              (tr0 ++ [.called c (st.head.getD nullKey) ec.value true])
              hch5 (hhead5 _) hnd5 hperm5 hf
            refine ⟨st',
              .called c (st.head.getD nullKey) ec.value true :: Δ', ?_, ?_⟩
            · have hstep : lruEvictLoop short debit (f + 1) (some c) st tr0 =
                  lruEvictLoop short debit f ec.next (lruEvictOne st c ec (debit ec))
                    (tr0 ++ [.called c (st.head.getD nullKey) ec.value true]) := by
                simp [lruEvictLoop, hs, hfvc, hcb, hv]
              rw [List.head?_cons, hstep, hcn, heq]
              simp
            · exact List.Sublist.cons₂ c hsub
        | none =>
          obtain ⟨hch5, hnd5, hperm5⟩ := hstep_wf (debit ec)
          obtain ⟨st', Δ', heq, hsub⟩ := ih V f (lruEvictOne st c ec (debit ec))
            (tr0 ++ [.silent c]) hch5 (hhead5 _) hnd5 hperm5 hf
          refine ⟨st', .silent c :: Δ', ?_, ?_⟩
          · have hstep : lruEvictLoop short debit (f + 1) (some c) st tr0 =
                lruEvictLoop short debit f ec.next (lruEvictOne st c ec (debit ec))
                  (tr0 ++ [.silent c]) := by
              simp [lruEvictLoop, hs, hfvc, hcb]
            rw [List.head?_cons, hstep, hcn, heq]
            simp
          · exact List.Sublist.cons₂ c hsub
      · exact ⟨st, [], by simp [lruEvictLoop, hs], List.nil_sublist _⟩

theorem mem_modVal {k : String} {f : α → α} {p : String × α} :
    ∀ {es : List (String × α)}, p ∈ modVal es k f →
      p ∈ es ∨ ∃ v, (k, v) ∈ es ∧ p = (k, f v) := by
  intro es
  induction es with
  | nil => intro h; simp [modVal] at h
  | cons q rest ih =>
    intro h
    obtain ⟨k₀, v₀⟩ := q
    by_cases h₀ : k₀ = k
    · subst h₀
      simp only [modVal, if_pos rfl] at h
      cases h with
      | head => exact Or.inr ⟨v₀, List.mem_cons_self _ _, rfl⟩
      | tail _ h1 => exact Or.inl (List.mem_cons_of_mem _ h1)
    · simp only [modVal, if_neg h₀] at h
      cases h with
      | head => exact Or.inl (List.mem_cons_self _ _)
      | tail _ h1 =>
        rcases ih h1 with h2 | ⟨v, hv, hp⟩
        · exact Or.inl (List.mem_cons_of_mem _ h2)
        · exact Or.inr ⟨v, List.mem_cons_of_mem _ hv, hp⟩

theorem sumCost_modVal (cost : α → Int) (es : List (String × α)) (k : String)
    (f : α → α) (h : ∀ a, cost (f a) = cost a) :
    sumCost cost (modVal es k f) = sumCost cost es := by
  induction es with
  | nil => rfl
  | cons q rest ih =>
    obtain ⟨k₀, v₀⟩ := q
    by_cases h₀ : k₀ = k <;>
      simp [modVal, h₀, sumCost_cons, ih, h]

theorem lruEvictOne_findVal_fields (st : LruCache) (c : String) (e : LruEntry)
    (d : Int) (x : String) (hxc : x ≠ c) {ex : LruEntry}
    (hfx : findVal st.entries x = some ex) :
    ∃ ex', findVal (lruEvictOne st c e d).entries x = some ex' ∧
      ex'.value = ex.value ∧ ex'.size = ex.size ∧
      ex'.onEvict = ex.onEvict := by
  by_cases hp : e.prev = some x
  · by_cases hn : e.next = some x
    · unfold lruEvictOne
      rw [hp, hn]
      dsimp
      (try split) <;>
        (rw [findVal_delKey_ne _ _ _ (Ne.symm hxc), findVal_setPrev_self,
          findVal_setNext_self, hfx]
         exact ⟨_, rfl, rfl, rfl, rfl⟩)
    · rw [lruEvictOne_findVal_prevNode st c e d x hxc hp hn, hfx]
      exact ⟨_, rfl, rfl, rfl, rfl⟩
  · by_cases hn : e.next = some x
    · rw [lruEvictOne_findVal_nextNode st c e d x hxc hp hn, hfx]
      exact ⟨_, rfl, rfl, rfl, rfl⟩
    · rw [lruEvictOne_findVal_untouched st c e d x hxc hp hn, hfx]
      exact ⟨_, rfl, rfl, rfl, rfl⟩

theorem lruInsert_findVal_fields (st : LruCache) (key : String)
    (value : JSValue) (sz : Int) (cb : Option Cb) (d : Int) (x : String)
    (hkx : key ≠ x) {ex : LruEntry}
    (hfx : findVal st.entries x = some ex) :
    ∃ ex', findVal (lruInsert st key value sz cb d).entries x = some ex' ∧
      ex'.value = ex.value ∧ ex'.size = ex.size ∧
      ex'.onEvict = ex.onEvict := by
  unfold lruInsert
  dsimp only
  cases htl : st.tail with
  | none =>
    rw [findVal_setKey_ne _ _ _ _ hkx, hfx]
    exact ⟨_, rfl, rfl, rfl, rfl⟩
  | some t =>
    by_cases htx : t = x
    · subst htx
      rw [findVal_setNext_self, findVal_setKey_ne _ _ _ _ hkx, hfx]
      exact ⟨_, rfl, rfl, rfl, rfl⟩
    · rw [findVal_setNext_ne _ _ _ _ htx, findVal_setKey_ne _ _ _ _ hkx, hfx]
      exact ⟨_, rfl, rfl, rfl, rfl⟩

/-- An entry whose callback constantly returns `false` survives the whole
LRU eviction loop with its value and callback intact, whatever the state:
the loop only deletes a candidate after its callback failed to return
`false`. -/
theorem lruEvictLoop_preserve (short : Int → Bool) (debit : LruEntry → Int)
    (k : String) (cb : Cb) (hcb : ∀ a w, cb a w = false) :
    ∀ (fuel : Nat) (curr : Option String) (st : LruCache) (tr0 : List Visit)
      (ek : LruEntry),
      findVal st.entries k = some ek → ek.onEvict = some cb →
      ∀ st' tr', lruEvictLoop short debit fuel curr st tr0 = .ok (st', tr') →
        ∃ ek', findVal st'.entries k = some ek' ∧ ek'.value = ek.value ∧
          ek'.onEvict = some cb := by
  intro fuel
  induction fuel with
  | zero =>
    intro curr st tr0 ek _ _ st' tr' h
    simp [lruEvictLoop] at h
  | succ f ih =>
    intro curr st tr0 ek hfk hoe st' tr' h
    cases curr with
    | none =>
      simp only [lruEvictLoop, Except.ok.injEq, Prod.mk.injEq] at h
      obtain ⟨rfl, -⟩ := h
      exact ⟨ek, hfk, rfl, hoe⟩
    | some c =>
      by_cases hs : short st.ledger
      · cases hfc : findVal st.entries c with
        | none => simp [lruEvictLoop, hs, hfc] at h
        | some e =>
          by_cases hkc : c = k
          · subst hkc
            rw [hfk] at hfc
            injection hfc with hfc
            subst hfc
            simp only [lruEvictLoop, hs, if_true, hfk, hoe, hcb,
              if_pos rfl] at h
            exact ih ek.next st _ ek hfk hoe st' tr' h
          · cases hoe2 : e.onEvict with
            | some cb2 =>
              cases hv : cb2 (st.head.getD nullKey) e.value with
              | false =>
                simp only [lruEvictLoop, hs, if_true, hfc, hoe2, hv,
                  if_pos rfl] at h
                exact ih e.next st _ ek hfk hoe st' tr' h
              | true =>
                simp only [lruEvictLoop, hs, if_true, hfc, hoe2, hv,
                  Bool.true_eq_false, if_neg (Bool.true_eq_false ▸ not_false)] at h
                obtain ⟨ek2, hfk2, hval2, -, hoe2'⟩ :=
                  lruEvictOne_findVal_fields st c e (debit e) k
                    (fun hh => hkc hh.symm) hfk
                obtain ⟨ek', h1, h2, h3⟩ := ih e.next _ _ ek2 hfk2
                  (by rw [hoe2', hoe]) st' tr' h
                exact ⟨ek', h1, by rw [h2, hval2], h3⟩
            | none =>
              simp only [lruEvictLoop, hs, if_true, hfc, hoe2] at h
              obtain ⟨ek2, hfk2, hval2, -, hoe2'⟩ :=
                lruEvictOne_findVal_fields st c e (debit e) k
                  (fun hh => hkc hh.symm) hfk
              obtain ⟨ek', h1, h2, h3⟩ := ih e.next _ _ ek2 hfk2
                (by rw [hoe2', hoe]) st' tr' h
              exact ⟨ek', h1, by rw [h2, hval2], h3⟩
      · simp only [lruEvictLoop, hs, if_false, Except.ok.injEq,
          Prod.mk.injEq] at h
        obtain ⟨rfl, -⟩ := h
        exact ⟨ek, hfk, rfl, hoe⟩

theorem mem_lruEvictOne_noPrev (st : LruCache) (c : String) (e : LruEntry)
    (d : Int) (hcp : e.prev = none) {p : String × LruEntry}
    (h : p ∈ (lruEvictOne st c e d).entries) :
    ∃ v, (p.1, v) ∈ st.entries ∧
      (p.2 = v ∨ p.2 = { v with prev := e.prev }) := by
  unfold lruEvictOne at h
  rw [hcp] at h
  cases hen : e.next with
  | none =>
    rw [hen] at h
    dsimp at h
    (try split at h) <;>
    · have h' := mem_of_mem_delKey h
      exact ⟨p.2, by simpa using h', Or.inl rfl⟩
  | some nk =>
    rw [hen] at h
    dsimp at h
    simp only [setPrev] at h
    (try split at h) <;>
    · have h' := mem_of_mem_delKey h
      rcases mem_modVal h' with h'' | ⟨v, hv, hp⟩
      · exact ⟨p.2, by simpa using h'', Or.inl rfl⟩
      · rw [hp]
        exact ⟨v, by simpa [hp] using hv, Or.inr (by rw [hcp])⟩

theorem lruEvictOne_sumCost_noPrev (debit : LruEntry → Int)
    (hd2 : ∀ a pr, debit { a with prev := pr } = debit a) (st : LruCache)
    (c : String) (e : LruEntry) (d : Int) (hcp : e.prev = none)
    (hfv : findVal st.entries c = some e) (hnc : e.next ≠ some c) :
    sumCost debit (lruEvictOne st c e d).entries =
      sumCost debit st.entries - debit e := by
  unfold lruEvictOne
  rw [hcp]
  cases hen : e.next with
  | none =>
    dsimp
    (try split) <;> rw [sumCost_delKey debit hfv]
  | some nk =>
    have hnkc : nk ≠ c := fun h => hnc (by rw [hen, h])
    dsimp
    (try split) <;>
    · rw [sumCost_delKey debit
        (by rw [findVal_setPrev_ne _ _ _ _ hnkc]; exact hfv)]
      simp only [setPrev]
      rw [sumCost_modVal _ _ _ _ (fun a => hd2 a none)]

theorem lruEvictOne_maxL (st : LruCache) (c : String) (e : LruEntry)
    (d : Int) : (lruEvictOne st c e d).maxL = st.maxL := by
  unfold lruEvictOne
  cases e.prev <;> cases e.next <;> dsimp <;> (try split) <;> rfl

/-- With no callbacks anywhere, the LRU loop on a well-formed list keeps the
ledger equal to the entries' total cost, and stops only once the shortfall
test fails or everything has been evicted. -/
theorem lruEvictLoop_drain (short : Int → Bool) (debit : LruEntry → Int)
    (hd2 : ∀ a pr, debit { a with prev := pr } = debit a) :
    ∀ (S : List String) (fuel : Nat) (st : LruCache) (tr0 : List Visit),
      chainB st.entries none S st.tail = true →
      st.head = S.head? → S.Nodup →
      List.Perm (keysOf st.entries) S →
      (∀ p ∈ st.entries, p.2.onEvict = none) →
      st.ledger = sumCost debit st.entries →
      (∀ p ∈ st.entries, 0 ≤ debit p.2) →
      S.length + 1 ≤ fuel →
      ∃ st' tr',
        lruEvictLoop short debit fuel S.head? st tr0 = .ok (st', tr') ∧
          st'.ledger = sumCost debit st'.entries ∧
          (∀ p ∈ st'.entries, 0 ≤ debit p.2) ∧
          (short st'.ledger = false ∨ st'.entries = []) ∧
          st'.maxL = st.maxL := by
  intro S
  induction S with
  | nil =>
    intro fuel st tr0 _ _ _ hperm hcball hacc hpos hfuel
    cases fuel with
    | zero => omega
    | succ f =>
      have hes : st.entries = [] := by
        have := hperm.length_eq
        simpa [keysOf] using List.eq_nil_of_length_eq_zero (by simpa [keysOf] using this)
      exact ⟨st, tr0, by simp [lruEvictLoop], by simpa [hes] using hacc,
        by simp [hes], Or.inr hes, rfl⟩
  | cons c S' ih =>
    intro fuel st tr0 hch hhd hnd hperm hcball hacc hpos hfuel
    cases fuel with
    | zero => simp at hfuel
    | succ f =>
      have hf : S'.length + 1 ≤ f := by simpa using hfuel
      by_cases hs : short st.ledger
      · obtain ⟨ec, hfvc, hcp, hcn, hrest⟩ := chainB_cons_elim hch
        have hcbnone : ec.onEvict = none := hcball _ (mem_of_findVal hfvc)
        have hcnotS : c ∉ S' := (List.nodup_cons.mp hnd).1
        have hnc : ec.next ≠ some c := fun h => by
          rw [hcn] at h
          rcases S' with _ | ⟨j, S''⟩
          · simp at h
          · simp only [List.head?_cons, Option.some.injEq] at h
            exact hcnotS (List.mem_cons.mpr (Or.inl h.symm))
        have hch5 : chainB (lruEvictOne st c ec (debit ec)).entries none S'
            (lruEvictOne st c ec (debit ec)).tail = true := by
          have := chainB_relink st c ec (debit ec) hfvc [] S' none
            (by simpa using hch) (by simpa using hnd)
            (fun x hx => by simp at hx)
          simpa using this
        have hhd5 : (lruEvictOne st c ec (debit ec)).head = S'.head? := by
          rw [lruEvictOne_head_noPrev st c ec (debit ec) hcp hnc, hcn]
        have hperm5 : List.Perm
            (keysOf (lruEvictOne st c ec (debit ec)).entries) S' := by
          rw [keysOf_lruEvictOne]
          have h1 := hperm.erase c
          rwa [List.erase_cons_head] at h1
        have hcball5 : ∀ p ∈ (lruEvictOne st c ec (debit ec)).entries,
            p.2.onEvict = none := by
          intro p hp
          obtain ⟨v, hv, hvp⟩ := mem_lruEvictOne_noPrev st c ec _ hcp hp
          rcases hvp with h' | h'
          · rw [h']; exact hcball _ hv
          · rw [h']; exact hcball _ hv
        have hacc5 : (lruEvictOne st c ec (debit ec)).ledger =
            sumCost debit (lruEvictOne st c ec (debit ec)).entries := by
          rw [lruEvictOne_ledger,
            lruEvictOne_sumCost_noPrev debit hd2 st c ec _ hcp hfvc hnc, hacc]
        have hpos5 : ∀ p ∈ (lruEvictOne st c ec (debit ec)).entries,
            0 ≤ debit p.2 := by
          intro p hp
          obtain ⟨v, hv, hvp⟩ := mem_lruEvictOne_noPrev st c ec _ hcp hp
          rcases hvp with h' | h'
          · rw [h']; exact hpos _ hv
          · rw [h', hd2]; exact hpos _ hv
        obtain ⟨st', tr', heq, ha, hb, hc2, hm⟩ := ih f
          (lruEvictOne st c ec (debit ec)) (tr0 ++ [.silent c]) hch5 hhd5
          (List.nodup_cons.mp hnd).2 hperm5 hcball5 hacc5 hpos5 hf
        refine ⟨st', tr', ?_, ha, hb, hc2,
          by rw [hm, lruEvictOne_maxL]⟩
        have hstep : lruEvictLoop short debit (f + 1) (some c) st tr0 =
            lruEvictLoop short debit f ec.next
              (lruEvictOne st c ec (debit ec)) (tr0 ++ [.silent c]) := by
          simp [lruEvictLoop, hs, hfvc, hcbnone]
        rw [List.head?_cons, hstep, hcn, heq]
      · exact ⟨st, tr0, by simp [lruEvictLoop, hs], hacc, hpos,
          Or.inl (by simpa using hs), rfl⟩

/-! ## Helpers for concrete runs and claim statements -/

/-- The constantly-vetoing callback. -/
def cbFalse : Cb := fun _ _ => false

/-- A callback that always lets the eviction proceed. -/
def cbTrue : Cb := fun _ _ => true

/-- The state a `FixedSizeLFUCache.put` leaves behind (unchanged on a
thrown error). -/
def FixedSizeLFUCache.putState (st : FixedSizeLFUCache) (now : Int)
    (key : String) (value : JSValue) (sizeOpt : Option Int)
    (cb : Option Cb) : FixedSizeLFUCache :=
  match st.put now key value sizeOpt cb with
  | .ok (_, st', _) => st'
  | .error _ => st

/-- The candidate visits a `FixedSizeLFUCache.put` performed. -/
def FixedSizeLFUCache.putTrace (st : FixedSizeLFUCache) (now : Int)
    (key : String) (value : JSValue) (sizeOpt : Option Int)
    (cb : Option Cb) : List Visit :=
  match st.put now key value sizeOpt cb with
  | .ok (_, _, tr) => tr
  | .error _ => []

def FixedCountLFUCache.putState (st : FixedCountLFUCache) (now : Int)
    (key : String) (value : JSValue) (cb : Option Cb) : FixedCountLFUCache :=
  match st.put now key value cb with
  | .ok (_, st', _) => st'
  | .error _ => st

def FixedCountLFUCache.putOk (st : FixedCountLFUCache) (now : Int)
    (key : String) (value : JSValue) (cb : Option Cb) : Bool :=
  match st.put now key value cb with
  | .ok (b, _, _) => b
  | .error _ => false

def FixedCountLFUCache.putTrace (st : FixedCountLFUCache) (now : Int)
    (key : String) (value : JSValue) (cb : Option Cb) : List Visit :=
  match st.put now key value cb with
  | .ok (_, _, tr) => tr
  | .error _ => []

def FixedSizeLRUCache.putState (st : LruCache) (key : String)
    (value : JSValue) (sizeOpt : Option Int) (cb : Option Cb) : LruCache :=
  match FixedSizeLRUCache.put st key value sizeOpt cb with
  | .ok (_, st', _) => st'
  | .error _ => st

def FixedCountLRUCache.putState (st : LruCache) (key : String)
    (value : JSValue) (cb : Option Cb) : LruCache :=
  match FixedCountLRUCache.put st key value cb with
  | .ok (_, st', _) => st'
  | .error _ => st

def FixedCountLRUCache.putOk (st : LruCache) (key : String)
    (value : JSValue) (cb : Option Cb) : Bool :=
  match FixedCountLRUCache.put st key value cb with
  | .ok (b, _, _) => b
  | .error _ => false

/-- The access counter currently recorded for a key. -/
def FixedCountLFUCache.accessesOf (st : FixedCountLFUCache) (k : String) :
    Option Int :=
  (findVal st.entries k).map (·.accesses)

/-- The access counter currently recorded for a key. -/
def FixedSizeLFUCache.accessesOf (st : FixedSizeLFUCache) (k : String) :
    Option Int :=
  (findVal st.entries k).map (·.accesses)

/-! ## C1 — the usage ledger -/

/-- A `FixedCountLFUCache` with room for 2 entries, decay disabled, holding
the single entry `"a"`. -/
def c1CountCache : FixedCountLFUCache :=
  ⟨2, 1, -1, [("a", ⟨.str "x", 1, none⟩)], 0⟩

/-- A `FixedSizeLFUCache` with a 100-byte limit holding `"a"` at cost 2,
with `#size = 2`. -/
def c1SizeCache : FixedSizeLFUCache :=
  ⟨100, -1, 2, [("a", ⟨.other, 2, 1, none⟩)], 0⟩

/-- **C1, failing runs.**  The ledger invariant is violated by the code on
two of the cited operations.  (1) `FixedCountLFUCache.clear` deletes every
entry from the store but never decrements `#count`: clearing the reachable
one-entry cache `c1CountCache` leaves `getCount() = 1` while no entries are
live (sum of live costs `0`).  (2) `put` of an already-present key debits
the new cost without crediting the old entry's: after `put("a", cost 2)`
then `put("a", cost 3)` on an empty `FixedSizeLFUCache`, `#size = 5` while
the only live entry costs `3`. -/
theorem c1_ledger_violations :
    (FixedCountLFUCache.put ⟨2, 0, -1, [], 0⟩ 0 "a" (.str "x") none =
      .ok (true, c1CountCache, [])) ∧
    (c1CountCache.clear false).getCount = 1 ∧
    (c1CountCache.clear false).entries = [] ∧
    countEntriesC (c1CountCache.clear false).entries = 0 ∧
    (1 : Int) ≠ 0 ∧
    (FixedSizeLFUCache.put ⟨100, -1, 0, [], 0⟩ 0 "a" .other (some 2) none =
      .ok (true, c1SizeCache, [])) ∧
    (FixedSizeLFUCache.put c1SizeCache 0 "a" .other (some 3) none =
      .ok (true, ⟨100, -1, 5, [("a", ⟨.other, 3, 1, none⟩)], 0⟩, [])) ∧
    sumSizesS [("a", (⟨.other, 3, 1, none⟩ : SLfuEntry))] = 3 ∧
    (5 : Int) ≠ 3 :=
  ⟨rfl, rfl, rfl, rfl, by decide, rfl, rfl, by decide, by decide⟩

/-! ## C2 — which key the LRU eviction callback receives -/

/-- `FixedCountLRUCache` with capacity 2 holding `"a"` (vetoing callback)
then `"b"` (callback that allows eviction), built by two `put` calls. -/
def c2Cache : LruCache :=
  FixedCountLRUCache.putState
    (FixedCountLRUCache.putState ⟨2, 0, none, none, []⟩ "a" (.str "va")
      (some cbFalse))
    "b" (.str "vb") (some cbTrue)

/-- **C2, failing run.**  During `put("c")` on `c2Cache`, candidate `"a"`
vetoes, the loop advances to candidate `"b"`, and `"b"`'s callback is
invoked with key `"a"` — the list head — rather than its own key `"b"`
(the loops pass `this.#head` instead of `curr`).  `"b"` is then evicted. -/
theorem c2_callback_receives_head_key :
    (LruCache.get c2Cache "b").1 = some (.str "vb") ∧
    (∃ st', FixedCountLRUCache.put c2Cache "c" (.str "vc") none =
      .ok (true, st',
        [.called "a" "a" (.str "va") false,
         .called "b" "a" (.str "vb") true]) ∧
      findVal st'.entries "b" = none) ∧
    ("b" : String) ≠ "a" :=
  ⟨rfl, ⟨_, rfl, rfl⟩, by decide⟩

/-! ## C4 — which error an unsized, non-derivable value raises -/

/-- **C4, failing run.**  `put("k", 42)` (a number value, modelled `.other`)
with no size on an empty size-bounded cache throws the `TypeError` that
`Buffer.byteLength` raises (`ERR_INVALID_ARG_TYPE`), not the documented
`"Byte size must be provided …"` (`CostRequired`) error: line 84/404 tests
`typeof key === 'string'` — true for every string key — instead of the
value's type, so the `CostRequired` branch is unreachable.  The cache is
unchanged either way (the throw happens before any mutation). -/
theorem c4_typeErr_instead_of_costRequired :
    FixedSizeLFUCache.put ⟨100, -1, 0, [], 0⟩ 0 "k" .other none none =
      .error .typeErr ∧
    FixedSizeLRUCache.put ⟨100, 0, none, none, []⟩ "k" .other none none =
      .error .typeErr ∧
    deriveSize .other = .error .typeErr ∧
    JSErr.typeErr ≠ JSErr.costRequired :=
  ⟨rfl, rfl, rfl, by decide⟩

/-! ## C5 — oversized rejection -/

/-- A `FixedCountLRUCache` that held `"a"` under limit 1, after
`setMaxCount(0)` lowered the limit to 0. -/
def c5Cache : LruCache :=
  (FixedCountLRUCache.putState ⟨1, 0, none, none, []⟩ "a" (.str "va")
    none).setMaxCount 0

/-- **C5, counterexample.**  On the count-bounded caches the claim fails:
with the limit lowered to 0, the new entry's cost 1 strictly exceeds the
limit, and `put("b")` does return `rejected` — but only after evicting the
live entry `"a"`, because the count-bounded `put` has no absolute-
feasibility pre-check. -/
theorem c5_count_put_evicts_before_rejecting :
    (LruCache.get c5Cache "a").1 = some (.str "va") ∧
    (1 : Int) > c5Cache.maxL ∧
    (∃ st', FixedCountLRUCache.put c5Cache "b" (.str "vb") none =
      .ok (false, st', [.silent "a"]) ∧
      st'.entries = [] ∧ findVal st'.entries "a" = none) :=
  ⟨rfl, by decide, ⟨_, rfl, rfl, rfl⟩⟩

/-- **C5 (amended).**  For the size-bounded caches the claim holds exactly:
a `put` whose resolved cost strictly exceeds `#maxSize` returns `false`
before the decay step and before the eviction loop, leaving the state
untouched and visiting no candidate. -/
theorem c5_size_oversized_rejected_without_eviction :
    (∀ (st : FixedSizeLFUCache) (now : Int) (key : String) (v : JSValue)
      (szOpt : Option Int) (cb : Option Cb) (c : Int),
      key ≠ "" → resolveSize szOpt v = .ok c → c > st.maxSize →
      FixedSizeLFUCache.put st now key v szOpt cb = .ok (false, st, [])) ∧
    (∀ (st : LruCache) (key : String) (v : JSValue) (szOpt : Option Int)
      (cb : Option Cb) (c : Int),
      key ≠ "" → resolveSize szOpt v = .ok c → c > st.maxL →
      FixedSizeLRUCache.put st key v szOpt cb = .ok (false, st, [])) := by
  constructor
  · intro st now key v szOpt cb c hkey hres hc
    unfold FixedSizeLFUCache.put
    rw [if_neg hkey, hres]
    dsimp only
    rw [if_pos hc]
  · intro st key v szOpt cb c hkey hres hc
    unfold FixedSizeLRUCache.put
    rw [if_neg hkey, hres]
    dsimp only
    rw [if_pos hc]

/-- Closed instance of `c5_size_oversized_rejected_without_eviction`:
an 11-byte value is rejected unchanged by an empty 10-byte cache. -/
theorem c5_size_witness :
    FixedSizeLFUCache.put ⟨10, -1, 0, [], 0⟩ 0 "k" .other (some 11) none =
      .ok (false, ⟨10, -1, 0, [], 0⟩, []) ∧
    FixedSizeLRUCache.put ⟨10, 0, none, none, []⟩ "k" .other (some 11) none =
      .ok (false, ⟨10, 0, none, none, []⟩, []) :=
  ⟨c5_size_oversized_rejected_without_eviction.1 _ 0 "k" .other (some 11)
      none 11 (by decide) rfl (by decide),
    c5_size_oversized_rejected_without_eviction.2 _ "k" .other (some 11)
      none 11 (by decide) rfl (by decide)⟩

/-! ## C7 — LRU eviction order -/

/-- `put(a)`, `put(b)` on an empty 2-capacity `FixedCountLRUCache`. -/
def c7CountTwo : LruCache :=
  FixedCountLRUCache.putState
    (FixedCountLRUCache.putState ⟨2, 0, none, none, []⟩ "a" (.str "va") none)
    "b" (.str "vb") none

/-- … then `get(a)`, `put(c)`. -/
def c7CountFinal : LruCache :=
  FixedCountLRUCache.putState ((c7CountTwo.get "a").2) "c" (.str "vc") none

/-- The same scenario on `FixedSizeLRUCache` with byte limit 2 and 1-byte
entries, so the capacity is exactly 2 entries. -/
def c7SizeTwo : LruCache :=
  FixedSizeLRUCache.putState
    (FixedSizeLRUCache.putState ⟨2, 0, none, none, []⟩ "a" (.str "va")
      (some 1) none)
    "b" (.str "vb") (some 1) none

def c7SizeFinal : LruCache :=
  FixedSizeLRUCache.putState ((c7SizeTwo.get "a").2) "c" (.str "vc")
    (some 1) none

/-- **C7.**  On both LRU variants with capacity for exactly 2 entries,
`put(a)`, `put(b)`, `get(a)`, `put(c)` evicts `b` — the least recently
touched entry — and keeps `a`: afterwards `get(a)` and `get(c)` hit and
`get(b)` misses. -/
theorem c7_lru_evicts_least_recent :
    (c7CountTwo.get "a").1 = some (.str "va") ∧
    FixedCountLRUCache.putOk ((c7CountTwo.get "a").2) "c" (.str "vc") none =
      true ∧
    (c7CountFinal.get "a").1 = some (.str "va") ∧
    (c7CountFinal.get "b").1 = none ∧
    (c7CountFinal.get "c").1 = some (.str "vc") ∧
    (c7SizeFinal.get "a").1 = some (.str "va") ∧
    (c7SizeFinal.get "b").1 = none ∧
    (c7SizeFinal.get "c").1 = some (.str "vc") :=
  ⟨rfl, rfl, rfl, rfl, rfl, rfl, rfl, rfl⟩

/-! ## C3 — passive decay timing -/

/-- A `FixedCountLFUCache` with `decayIntervalMs = 1000`, decay deadline at
time 1000, holding `"a"` with `accessCount = 4`. -/
def c3Cache : FixedCountLFUCache :=
  ⟨3, 1, 1000, [("a", ⟨.str "v", 4, none⟩)], 1000⟩

/-- **C3, counterexample.**  A `put` executed exactly *at* the decay
deadline (`now = nextExpire = 1000`) leaves `accessCount = 4`: the code
fires decay only when `#nextExpire < now` holds strictly (line 95/257), so
"at the deadline" does not decay, contradicting the claim that the counter
is 2 after a put at or after the deadline. -/
theorem c3_no_decay_at_deadline :
    FixedCountLFUCache.putOk c3Cache 1000 "b" (.str "w") none = true ∧
    (FixedCountLFUCache.putState c3Cache 1000 "b" (.str "w") none).accessesOf
      "a" = some 4 ∧
    ¬((FixedCountLFUCache.putState c3Cache 1000 "b" (.str "w")
      none).accessesOf "a" = some 2) :=
  ⟨rfl, rfl, by decide⟩

/-- **C3 (amended).**  Decay fires exactly when the put's current time is
strictly *after* the deadline (`nextExpire < now`), for both LFU variants:
then every live entry's counter is halved with floor division and the next
deadline becomes `now + decayIntervalMs`; at or before the deadline (or
with decay disabled) nothing changes.  On the concrete 4-count entry, a
`put` at `now > 1000` leaves count 2 and a `put` at `now ≤ 1000` leaves
count 4. -/
theorem c3_decay_fires_strictly_after_deadline :
    (∀ (st : FixedSizeLFUCache) (now : Int),
      0 ≤ st.expireMs → st.nextExpire < now →
      (st.decayStep now).nextExpire = now + st.expireMs ∧
      ∀ k, (st.decayStep now).accessesOf k =
        (st.accessesOf k).map (fun a => Int.fdiv a 2)) ∧
    (∀ (st : FixedSizeLFUCache) (now : Int),
      ¬(0 ≤ st.expireMs ∧ st.nextExpire < now) → st.decayStep now = st) ∧
    (∀ (st : FixedCountLFUCache) (now : Int),
      0 ≤ st.expireMs → st.nextExpire < now →
      (st.decayStep now).nextExpire = now + st.expireMs ∧
      ∀ k, (st.decayStep now).accessesOf k =
        (st.accessesOf k).map (fun a => Int.fdiv a 2)) ∧
    (∀ (st : FixedCountLFUCache) (now : Int),
      ¬(0 ≤ st.expireMs ∧ st.nextExpire < now) → st.decayStep now = st) ∧
    (∀ now : Int, 1000 < now →
      (FixedCountLFUCache.putState c3Cache now "b" (.str "w")
        none).accessesOf "a" = some 2) ∧
    (∀ now : Int, now ≤ 1000 →
      (FixedCountLFUCache.putState c3Cache now "b" (.str "w")
        none).accessesOf "a" = some 4) := by
  refine ⟨?_, ?_, ?_, ?_, ?_, ?_⟩
  · intro st now h1 h2
    unfold FixedSizeLFUCache.decayStep
    rw [if_pos h1, if_pos h2]
    refine ⟨rfl, fun k => ?_⟩
    unfold FixedSizeLFUCache.accessesOf
    dsimp only
    rw [findVal_mapSnd st.entries
      (fun e => { e with accesses := Int.fdiv e.accesses 2 }) k]
    cases findVal st.entries k <;> rfl
  · intro st now h
    unfold FixedSizeLFUCache.decayStep
    by_cases h1 : 0 ≤ st.expireMs
    · rw [if_pos h1]
      by_cases h2 : st.nextExpire < now
      · exact absurd ⟨h1, h2⟩ h
      · rw [if_neg h2]
    · rw [if_neg h1]
  · intro st now h1 h2
    unfold FixedCountLFUCache.decayStep
    rw [if_pos h1, if_pos h2]
    refine ⟨rfl, fun k => ?_⟩
    unfold FixedCountLFUCache.accessesOf
    dsimp only
    rw [findVal_mapSnd st.entries
      (fun e => { e with accesses := Int.fdiv e.accesses 2 }) k]
    cases findVal st.entries k <;> rfl
  · intro st now h
    unfold FixedCountLFUCache.decayStep
    by_cases h1 : 0 ≤ st.expireMs
    · rw [if_pos h1]
      by_cases h2 : st.nextExpire < now
      · exact absurd ⟨h1, h2⟩ h
      · rw [if_neg h2]
    · rw [if_neg h1]
  · intro now h
    simp [FixedCountLFUCache.putState, FixedCountLFUCache.put,
      FixedCountLFUCache.decayStep, c3Cache, h, FixedCountLFUCache.accessesOf,
      findVal, setKey]
  · intro now h
    have h' : ¬(1000 : Int) < now := by omega
    simp [FixedCountLFUCache.putState, FixedCountLFUCache.put,
      FixedCountLFUCache.decayStep, c3Cache, h',
      FixedCountLFUCache.accessesOf, findVal, setKey]

/-- Closed instance of `c3_decay_fires_strictly_after_deadline`. -/
theorem c3_decay_witness :
    ((⟨10, 1000, 0, [("a", ⟨.str "v", 1, 4, none⟩)], 1000⟩ :
        FixedSizeLFUCache).decayStep 1001).nextExpire = 1001 + 1000 ∧
    ((⟨10, 1000, 0, [("a", ⟨.str "v", 1, 4, none⟩)], 1000⟩ :
        FixedSizeLFUCache).decayStep 1000) =
      ⟨10, 1000, 0, [("a", ⟨.str "v", 1, 4, none⟩)], 1000⟩ ∧
    (c3Cache.decayStep 1001).nextExpire = 1001 + 1000 ∧
    c3Cache.decayStep 1000 = c3Cache ∧
    (FixedCountLFUCache.putState c3Cache 1001 "b" (.str "w") none).accessesOf
      "a" = some 2 ∧
    (FixedCountLFUCache.putState c3Cache 1000 "b" (.str "w") none).accessesOf
      "a" = some 4 :=
  ⟨(c3_decay_fires_strictly_after_deadline.1 _ 1001 (by decide) (by decide)).1,
    c3_decay_fires_strictly_after_deadline.2.1 _ 1000 (by decide),
    (c3_decay_fires_strictly_after_deadline.2.2.1 _ 1001 (by decide)
      (by decide)).1,
    c3_decay_fires_strictly_after_deadline.2.2.2.1 _ 1000 (by decide),
    c3_decay_fires_strictly_after_deadline.2.2.2.2.1 1001 (by decide),
    c3_decay_fires_strictly_after_deadline.2.2.2.2.2 1000 (by decide)⟩

/-! ## C8 — LFU eviction order -/

/-- Decay-disabled 2-capacity `FixedCountLFUCache` after `put(a)`,
`put(b)`. -/
def c8Two : FixedCountLFUCache :=
  FixedCountLFUCache.putState
    (FixedCountLFUCache.putState ⟨2, 0, -1, [], 0⟩ 0 "a" (.str "va") none)
    0 "b" (.str "vb") none

/-- … after `get(a)` three times. -/
def c8Boosted : FixedCountLFUCache :=
  (((c8Two.get "a").2.get "a").2.get "a").2

/-- … after `put(c)`, which must evict one entry. -/
def c8Final : FixedCountLFUCache :=
  FixedCountLFUCache.putState c8Boosted 0 "c" (.str "vc") none

/-- **C8.**  With decay disabled, after `put(a)`, `put(b)` and three
`get(a)` calls, inserting `c` (which needs one eviction) evicts `b` — the
entry with access count 1 against `a`'s 4 — and keeps `a`.  Moreover the
candidate order of every `put` call is the ascending-access-count order
computed once at the start of the eviction loop: the visits' candidates are
an initial segment of the keys of the snapshot
`sort(entries of the decayed state)`, which is sorted ascending by access
count and is a permutation of the entry store. -/
theorem c8_lfu_evicts_lowest_access_count :
    c8Boosted.accessesOf "a" = some 4 ∧
    c8Boosted.accessesOf "b" = some 1 ∧
    FixedCountLFUCache.putOk c8Boosted 0 "c" (.str "vc") none = true ∧
    FixedCountLFUCache.putTrace c8Boosted 0 "c" (.str "vc") none =
      [.silent "b"] ∧
    (c8Final.get "a").1 = some (.str "va") ∧
    (c8Final.get "b").1 = none ∧
    (c8Final.get "c").1 = some (.str "vc") ∧
    c8Final.count = 2 ∧
    (∀ (st : FixedCountLFUCache) (now : Int) (key : String) (v : JSValue)
      (cb : Option Cb),
      ∃ rest, keysOf (sortByAccC ((st.decayStep now).entries)) =
        (st.putTrace now key v cb).map Visit.cand ++ rest) ∧
    (∀ (st : FixedSizeLFUCache) (now : Int) (key : String) (v : JSValue)
      (szOpt : Option Int) (cb : Option Cb),
      ∃ rest, keysOf (sortByAccS ((st.decayStep now).entries)) =
        (st.putTrace now key v szOpt cb).map Visit.cand ++ rest) ∧
    (∀ es : List (String × CLfuEntry),
      List.Sorted accLeC (sortByAccC es) ∧ List.Perm (sortByAccC es) es) ∧
    (∀ es : List (String × SLfuEntry),
      List.Sorted accLeS (sortByAccS es) ∧ List.Perm (sortByAccS es) es) := by
  refine ⟨rfl, rfl, rfl, rfl, rfl, rfl, rfl, rfl, ?_, ?_, ?_, ?_⟩
  · intro st now key v cb
    unfold FixedCountLFUCache.putTrace FixedCountLFUCache.put
    by_cases hk : key = ""
    · rw [if_pos hk]
      exact ⟨_, rfl⟩
    · rw [if_neg hk]
      dsimp only
      by_cases hcond : (st.decayStep now).count ≥ (st.decayStep now).maxCount
      · rw [if_pos hcond]
        obtain ⟨Δ, rest, h1, h2⟩ := lfuEvictPass_trace
          (fun l => decide (l ≥ (st.decayStep now).maxCount)) (fun _ => 1)
          (·.onEvict) (·.value) (sortByAccC (st.decayStep now).entries)
          (st.decayStep now).count (st.decayStep now).entries []
        by_cases hr : (lfuEvictPass
            (fun l => decide (l ≥ (st.decayStep now).maxCount)) (fun _ => 1)
            (·.onEvict) (·.value) (sortByAccC (st.decayStep now).entries)
            (st.decayStep now).count (st.decayStep now).entries []).1 ≥
            (st.decayStep now).maxCount
        · rw [if_pos hr]
          dsimp only
          exact ⟨rest, by rw [h1]; simpa using h2⟩
        · rw [if_neg hr]
          dsimp only
          exact ⟨rest, by rw [h1]; simpa using h2⟩
      · rw [if_neg hcond]
        exact ⟨_, rfl⟩
  · intro st now key v szOpt cb
    unfold FixedSizeLFUCache.putTrace FixedSizeLFUCache.put
    by_cases hk : key = ""
    · rw [if_pos hk]
      exact ⟨_, rfl⟩
    · rw [if_neg hk]
      cases hres : resolveSize szOpt v with
      | error e => exact ⟨_, rfl⟩
      | ok sz =>
        dsimp only
        by_cases hbig : sz > st.maxSize
        · rw [if_pos hbig]
          exact ⟨_, rfl⟩
        · rw [if_neg hbig]
          by_cases hcond : (st.decayStep now).maxSize -
              (st.decayStep now).size < sz
          · rw [if_pos hcond]
            obtain ⟨Δ, rest, h1, h2⟩ := lfuEvictPass_trace
              (fun l => decide ((st.decayStep now).maxSize - l < sz))
              (·.size) (·.onEvict) (·.value)
              (sortByAccS (st.decayStep now).entries)
              (st.decayStep now).size (st.decayStep now).entries []
            by_cases hr : (st.decayStep now).maxSize - (lfuEvictPass
                (fun l => decide ((st.decayStep now).maxSize - l < sz))
                (·.size) (·.onEvict) (·.value)
                (sortByAccS (st.decayStep now).entries)
                (st.decayStep now).size (st.decayStep now).entries []).1 < sz
            · rw [if_pos hr]
              dsimp only
              exact ⟨rest, by rw [h1]; simpa using h2⟩
            · rw [if_neg hr]
              dsimp only
              exact ⟨rest, by rw [h1]; simpa using h2⟩
          · rw [if_neg hcond]
            exact ⟨_, rfl⟩
  · exact fun es => ⟨List.sorted_insertionSort accLeC es,
      List.perm_insertionSort accLeC es⟩
  · exact fun es => ⟨List.sorted_insertionSort accLeS es,
      List.perm_insertionSort accLeS es⟩

/-! ## C9 — an explicit size of 0 is re-derived -/

theorem lruInsert_findVal_self (st : LruCache) (key : String) (v : JSValue)
    (sz : Int) (cb : Option Cb) (d : Int) :
    ∃ e, findVal (lruInsert st key v sz cb d).entries key = some e ∧
      e.size = sz ∧ e.value = v ∧ e.onEvict = cb := by
  unfold lruInsert
  dsimp only
  cases htl : st.tail with
  | none =>
    rw [findVal_setKey_self]
    exact ⟨_, rfl, rfl, rfl, rfl⟩
  | some t =>
    by_cases htk : t = key
    · subst htk
      rw [findVal_setNext_self, findVal_setKey_self]
      exact ⟨_, rfl, rfl, rfl, rfl⟩
    · rw [findVal_setNext_ne _ _ _ _ htk, findVal_setKey_self]
      exact ⟨_, rfl, rfl, rfl, rfl⟩

/-- **C9.**  An explicitly supplied `size: 0` is falsy, so `put` treats it
exactly like an omitted size (`resolveSize (some 0) = resolveSize none`),
re-deriving the cost from the value; consequently, for every value whose
byte length is derivable (a string or a Buffer), an accepted `put` with
size 0 stores the entry at the derived byte length, on both size-bounded
caches. -/
theorem c9_zero_size_rederived :
    (∀ v : JSValue, resolveSize (some 0) v = resolveSize none v) ∧
    (∀ (st : FixedSizeLFUCache) (now : Int) (key : String) (v : JSValue)
      (cb : Option Cb) (n : Int), bufferByteLength v = some n →
      ∀ st' tr, FixedSizeLFUCache.put st now key v (some 0) cb =
        .ok (true, st', tr) →
      ∃ e, findVal st'.entries key = some e ∧ e.size = n ∧ e.value = v) ∧
    (∀ (st : LruCache) (key : String) (v : JSValue) (cb : Option Cb)
      (n : Int), bufferByteLength v = some n →
      ∀ st' tr, FixedSizeLRUCache.put st key v (some 0) cb =
        .ok (true, st', tr) →
      ∃ e, findVal st'.entries key = some e ∧ e.size = n ∧ e.value = v) := by
  refine ⟨fun _ => rfl, ?_, ?_⟩
  · intro st now key v cb n hbl st' tr hput
    have hres : resolveSize (some 0) v = .ok n := by
      simp [resolveSize, sizeFalsy, deriveSize, keyTypeofIsString, hbl]
    unfold FixedSizeLFUCache.put at hput
    by_cases hk : key = ""
    · rw [if_pos hk] at hput
      cases hput
    · rw [if_neg hk, hres] at hput
      dsimp only at hput
      by_cases hbig : n > st.maxSize
      · rw [if_pos hbig] at hput
        simp at hput
      · rw [if_neg hbig] at hput
        by_cases hcond : (st.decayStep now).maxSize -
            (st.decayStep now).size < n
        · rw [if_pos hcond] at hput
          by_cases hr : (st.decayStep now).maxSize - (lfuEvictPass
              (fun l => decide ((st.decayStep now).maxSize - l < n))
              (·.size) (·.onEvict) (·.value)
              (sortByAccS (st.decayStep now).entries)
              (st.decayStep now).size (st.decayStep now).entries []).1 < n
          · rw [if_pos hr] at hput
            simp at hput
          · rw [if_neg hr] at hput
            simp only [Except.ok.injEq, Prod.mk.injEq, true_and] at hput
            obtain ⟨hst, -⟩ := hput
            subst hst
            exact ⟨_, findVal_setKey_self _ _ _, rfl, rfl⟩
        · rw [if_neg hcond] at hput
          simp only [Except.ok.injEq, Prod.mk.injEq, true_and] at hput
          obtain ⟨hst, -⟩ := hput
          subst hst
          exact ⟨_, findVal_setKey_self _ _ _, rfl, rfl⟩
  · intro st key v cb n hbl st' tr hput
    have hres : resolveSize (some 0) v = .ok n := by
      simp [resolveSize, sizeFalsy, deriveSize, keyTypeofIsString, hbl]
    unfold FixedSizeLRUCache.put at hput
    by_cases hk : key = ""
    · rw [if_pos hk] at hput
      cases hput
    · rw [if_neg hk, hres] at hput
      dsimp only at hput
      by_cases hbig : n > st.maxL
      · rw [if_pos hbig] at hput
        simp at hput
      · rw [if_neg hbig] at hput
        by_cases hcond : st.maxL - st.ledger < n
        · rw [if_pos hcond] at hput
          cases hloop : lruEvictLoop (fun l => decide (st.maxL - l < n))
              (·.size) (st.entries.length + 1) st.head st [] with
          | error err =>
            rw [hloop] at hput
            cases hput
          | ok p =>
            obtain ⟨st1, tr1⟩ := p
            rw [hloop] at hput
            dsimp only at hput
            by_cases hr : st1.maxL - st1.ledger < n
            · rw [if_pos hr] at hput
              simp at hput
            · rw [if_neg hr] at hput
              simp only [Except.ok.injEq, Prod.mk.injEq, true_and] at hput
              obtain ⟨hst, -⟩ := hput
              subst hst
              obtain ⟨e, h1, h2, h3, -⟩ := lruInsert_findVal_self st1 key v n cb n
              exact ⟨e, h1, h2, h3⟩
        · rw [if_neg hcond] at hput
          simp only [Except.ok.injEq, Prod.mk.injEq, true_and] at hput
          obtain ⟨hst, -⟩ := hput
          subst hst
          obtain ⟨e, h1, h2, h3, -⟩ := lruInsert_findVal_self st key v n cb n
          exact ⟨e, h1, h2, h3⟩

/-- Closed instance of `c9_zero_size_rederived`: a 2-byte string put with
an explicit size 0 is stored at cost 2. -/
theorem c9_witness :
    resolveSize (some 0) .other = resolveSize none .other ∧
    (∃ e, findVal (FixedSizeLFUCache.putState ⟨100, -1, 0, [], 0⟩ 0 "k"
        (.str "xy") (some 0) none).entries "k" = some e ∧
      e.size = 2 ∧ e.value = .str "xy") ∧
    (∃ e, findVal (FixedSizeLRUCache.putState ⟨100, 0, none, none, []⟩ "k"
        (.str "xy") (some 0) none).entries "k" = some e ∧
      e.size = 2 ∧ e.value = .str "xy") :=
  by
  refine ⟨c9_zero_size_rederived.1 .other, ?_, ?_⟩
  · have h := c9_zero_size_rederived.2.1 ⟨100, -1, 0, [], 0⟩ 0 "k"
      (.str "xy") none 2 rfl
    exact h _ [] rfl
  · have h := c9_zero_size_rederived.2.2 ⟨100, 0, none, none, []⟩ "k"
      (.str "xy") none 2 rfl
    exact h _ [] rfl

/-! ## C10 — the absolute-feasibility check is strict -/

theorem FixedSizeLFUCache.decayStep_size (st : FixedSizeLFUCache)
    (now : Int) : (st.decayStep now).size = st.size := by
  unfold FixedSizeLFUCache.decayStep
  (try split) <;> (try split) <;> rfl

theorem FixedSizeLFUCache.decayStep_maxSize (st : FixedSizeLFUCache)
    (now : Int) : (st.decayStep now).maxSize = st.maxSize := by
  unfold FixedSizeLFUCache.decayStep
  (try split) <;> (try split) <;> rfl

theorem decayStepS_entries_cases (st : FixedSizeLFUCache) (now : Int) :
    (st.decayStep now).entries = st.entries ∨
      (st.decayStep now).entries = st.entries.map
        (fun p => (p.1, { p.2 with accesses := Int.fdiv p.2.accesses 2 })) := by
  unfold FixedSizeLFUCache.decayStep
  (try split) <;> (try split)
  · exact Or.inr rfl
  · exact Or.inl rfl
  · exact Or.inl rfl

theorem decayStepS_keys (st : FixedSizeLFUCache) (now : Int) :
    keysOf (st.decayStep now).entries = keysOf st.entries := by
  rcases decayStepS_entries_cases st now with h | h <;> rw [h]
  simp [keysOf, List.map_map, Function.comp_def]

theorem decayStepS_sum (st : FixedSizeLFUCache) (now : Int) :
    sumCost (·.size) (st.decayStep now).entries =
      sumCost (·.size) st.entries := by
  rcases decayStepS_entries_cases st now with h | h <;> rw [h]
  simp [sumCost, List.map_map, Function.comp_def]

theorem decayStepS_mem (st : FixedSizeLFUCache) (now : Int)
    {p : String × SLfuEntry} (hp : p ∈ (st.decayStep now).entries) :
    ∃ q ∈ st.entries, p.2.onEvict = q.2.onEvict ∧ p.2.size = q.2.size := by
  rcases decayStepS_entries_cases st now with h | h <;> rw [h] at hp
  · exact ⟨p, hp, rfl, rfl⟩
  · obtain ⟨q, hq, rfl⟩ := List.mem_map.mp hp
    exact ⟨q, hq, rfl, rfl⟩

/-- **C10.**  The absolute-feasibility rejection of the size-bounded caches
is strict (`options.size > this.#maxSize`): a `put` whose resolved cost
*equals* the limit is not rejected as oversized.  On an empty cache it is
accepted immediately and leaves the usage equal to the limit, and on a
cache with no vetoing callbacks the eviction loop frees all capacity and
the `put` is likewise accepted with final usage equal to the limit — for
both `FixedSizeLFUCache` and `FixedSizeLRUCache`. -/
theorem c10_limit_sized_put_accepted :
    (∀ (st : FixedSizeLFUCache) (now : Int) (key : String) (v : JSValue)
      (szOpt : Option Int) (cb : Option Cb),
      key ≠ "" → resolveSize szOpt v = .ok st.maxSize →
      st.entries = [] → st.size = 0 →
      ∃ st', FixedSizeLFUCache.put st now key v szOpt cb =
          .ok (true, st', []) ∧
        st'.size = st.maxSize ∧
        ∃ e, findVal st'.entries key = some e ∧ e.size = st.maxSize ∧
          e.value = v) ∧
    (∀ (st : LruCache) (key : String) (v : JSValue) (szOpt : Option Int)
      (cb : Option Cb),
      key ≠ "" → resolveSize szOpt v = .ok st.maxL →
      st.entries = [] → st.ledger = 0 →
      ∃ st', FixedSizeLRUCache.put st key v szOpt cb = .ok (true, st', []) ∧
        st'.ledger = st.maxL ∧
        ∃ e, findVal st'.entries key = some e ∧ e.size = st.maxL ∧
          e.value = v) ∧
    (∀ (st : FixedSizeLFUCache) (now : Int) (key : String) (v : JSValue)
      (szOpt : Option Int) (cb : Option Cb),
      key ≠ "" → resolveSize szOpt v = .ok st.maxSize →
      (∀ p ∈ st.entries, p.2.onEvict = none) →
      (keysOf st.entries).Nodup →
      st.size = sumSizesS st.entries →
      (∀ p ∈ st.entries, 0 ≤ p.2.size) →
      ∃ st' tr, FixedSizeLFUCache.put st now key v szOpt cb =
          .ok (true, st', tr) ∧ st'.size = st.maxSize) ∧
    (∀ (st : LruCache) (key : String) (v : JSValue) (szOpt : Option Int)
      (cb : Option Cb) (ks : List String),
      key ≠ "" → resolveSize szOpt v = .ok st.maxL →
      LruWf st ks →
      (∀ p ∈ st.entries, p.2.onEvict = none) →
      st.ledger = sumSizesL st.entries →
      (∀ p ∈ st.entries, 0 ≤ p.2.size) →
      ∃ st' tr, FixedSizeLRUCache.put st key v szOpt cb =
          .ok (true, st', tr) ∧ st'.ledger = st.maxL) := by
  refine ⟨?_, ?_, ?_, ?_⟩
  · intro st now key v szOpt cb hk hres hes hsz
    unfold FixedSizeLFUCache.put
    rw [if_neg hk, hres]
    dsimp only
    rw [if_neg (lt_irrefl st.maxSize)]
    have h1 : (st.decayStep now).size = st.size := st.decayStep_size now
    have h2 : (st.decayStep now).maxSize = st.maxSize :=
      st.decayStep_maxSize now
    have hcond : ¬((st.decayStep now).maxSize - (st.decayStep now).size <
        st.maxSize) := by
      rw [h1, h2, hsz]
      omega
    rw [if_neg hcond]
    refine ⟨_, rfl, ?_, ?_⟩
    · show (st.decayStep now).size + st.maxSize = st.maxSize
      rw [h1, hsz]
      omega
    · exact ⟨_, findVal_setKey_self _ _ _, rfl, rfl⟩
  · intro st key v szOpt cb hk hres hes hl
    unfold FixedSizeLRUCache.put
    rw [if_neg hk, hres]
    dsimp only
    rw [if_neg (lt_irrefl st.maxL)]
    rw [if_neg (show ¬(st.maxL - st.ledger < st.maxL) by rw [hl]; omega)]
    refine ⟨_, rfl, ?_, ?_⟩
    · show st.ledger + st.maxL = st.maxL
      rw [hl]
      omega
    · obtain ⟨e, h1, h2, h3, -⟩ := lruInsert_findVal_self st key v st.maxL cb
        st.maxL
      exact ⟨e, h1, h2, h3⟩
  · intro st now key v szOpt cb hk hres hcb hnd hacc hpos
    have hcb1 : ∀ p ∈ (st.decayStep now).entries, p.2.onEvict = none := by
      intro p hp
      obtain ⟨q, hq, he, -⟩ := decayStepS_mem st now hp
      rw [he]
      exact hcb q hq
    have hnd1 : (keysOf (st.decayStep now).entries).Nodup := by
      rw [decayStepS_keys]
      exact hnd
    have hacc1 : (st.decayStep now).size =
        sumCost (·.size) (st.decayStep now).entries := by
      rw [st.decayStep_size now, decayStepS_sum]
      exact hacc
    have hpos1 : ∀ p ∈ (st.decayStep now).entries, 0 ≤ p.2.size := by
      intro p hp
      obtain ⟨q, hq, -, hs⟩ := decayStepS_mem st now hp
      rw [hs]
      exact hpos q hq
    unfold FixedSizeLFUCache.put
    rw [if_neg hk, hres]
    dsimp only
    rw [if_neg (lt_irrefl st.maxSize)]
    by_cases hcond : (st.decayStep now).maxSize - (st.decayStep now).size <
        st.maxSize
    · rw [if_pos hcond]
      have hperm : List.Perm (sortByAccS (st.decayStep now).entries)
          (st.decayStep now).entries := List.perm_insertionSort _ _
      have hpermk : List.Perm
          (keysOf (sortByAccS (st.decayStep now).entries))
          (keysOf (st.decayStep now).entries) := hperm.map _
      obtain ⟨ha, hb, hc⟩ := lfuEvictPass_drain
        (fun l => decide ((st.decayStep now).maxSize - l < st.maxSize))
        (·.size) (·.onEvict) (·.value)
        (sortByAccS (st.decayStep now).entries)
        (st.decayStep now).size (st.decayStep now).entries []
        (fun p hp => hcb1 p (hperm.mem_iff.mp hp))
        (fun p hp => findVal_of_mem_nodup (hperm.mem_iff.mp hp) hnd1)
        (hpermk.nodup_iff.mpr hnd1)
        hnd1 hacc1 hpos1
        (fun p hp => List.mem_map_of_mem (·.1) (hperm.mem_iff.mpr hp))
      set res := lfuEvictPass
        (fun l => decide ((st.decayStep now).maxSize - l < st.maxSize))
        (fun x => x.size) (fun x => x.onEvict) (fun x => x.value)
        (sortByAccS (st.decayStep now).entries)
        (st.decayStep now).size (st.decayStep now).entries [] with hresdef
      have hzero : res.1 = 0 := by
        rcases hc with h | h
        · have h' : ¬((st.decayStep now).maxSize - res.1 < st.maxSize) := by
            simpa using h
          have hge : 0 ≤ res.1 := ha ▸ sumCost_nonneg _ hb
          rw [st.decayStep_maxSize now] at h'
          omega
        · rw [ha, h]
          rfl
      have hno : ¬((st.decayStep now).maxSize - res.1 < st.maxSize) := by
        rw [hzero, st.decayStep_maxSize now]
        omega
      rw [if_neg hno]
      refine ⟨_, _, rfl, ?_⟩
      show res.1 + st.maxSize = st.maxSize
      rw [hzero]
      omega
    · rw [if_neg hcond]
      have h0 : (st.decayStep now).size = 0 := by
        have hge : 0 ≤ (st.decayStep now).size :=
          hacc1 ▸ sumCost_nonneg _ hpos1
        rw [st.decayStep_maxSize now] at hcond
        have := st.decayStep_size now
        omega
      refine ⟨_, _, rfl, ?_⟩
      show (st.decayStep now).size + st.maxSize = st.maxSize
      rw [h0]
      omega
  · intro st key v szOpt cb ks hk hres hwf hcb hacc hpos
    obtain ⟨hch, hhd, hnd, hperm⟩ := hwf
    unfold FixedSizeLRUCache.put
    rw [if_neg hk, hres]
    dsimp only
    rw [if_neg (lt_irrefl st.maxL)]
    by_cases hcond : st.maxL - st.ledger < st.maxL
    · rw [if_pos hcond]
      have hfuel : ks.length + 1 ≤ st.entries.length + 1 := by
        have := hperm.length_eq
        simp only [keysOf, List.length_map] at this
        omega
      obtain ⟨st2, tr2, hloop, ha, hb, hc, hm⟩ := lruEvictLoop_drain
        (fun l => decide (st.maxL - l < st.maxL)) (·.size)
        (fun a pr => rfl) ks (st.entries.length + 1) st [] hch hhd hnd hperm
        hcb hacc hpos hfuel
      rw [hhd, hloop]
      dsimp only
      have hzero : st2.ledger = 0 := by
        rcases hc with h | h
        · have h' : ¬(st.maxL - st2.ledger < st.maxL) := by simpa using h
          have hge : 0 ≤ st2.ledger := ha ▸ sumCost_nonneg _ hb
          omega
        · rw [ha, h]
          rfl
      rw [if_neg (show ¬(st2.maxL - st2.ledger < st.maxL) by
        rw [hm, hzero]; omega)]
      refine ⟨_, _, rfl, ?_⟩
      show st2.ledger + st.maxL = st.maxL
      rw [hzero]
      omega
    · rw [if_neg hcond]
      have hzero : st.ledger = 0 := by
        have hge : 0 ≤ st.ledger := hacc ▸ sumCost_nonneg _ hpos
        omega
      refine ⟨_, _, rfl, ?_⟩
      show st.ledger + st.maxL = st.maxL
      rw [hzero]
      omega

/-- Closed instance of `c10_limit_sized_put_accepted`: a cost-equal-to-limit
put accepted on empty caches, and accepted after draining a full
non-vetoing cache, on both size-bounded variants. -/
theorem c10_witness :
    (∃ st', FixedSizeLFUCache.put ⟨7, -1, 0, [], 0⟩ 0 "k" .other (some 7)
        none = .ok (true, st', []) ∧ st'.size = 7 ∧
      ∃ e, findVal st'.entries "k" = some e ∧ e.size = 7 ∧
        e.value = .other) ∧
    (∃ st', FixedSizeLRUCache.put ⟨7, 0, none, none, []⟩ "k" .other (some 7)
        none = .ok (true, st', []) ∧ st'.ledger = 7 ∧
      ∃ e, findVal st'.entries "k" = some e ∧ e.size = 7 ∧
        e.value = .other) ∧
    (∃ st' tr, FixedSizeLFUCache.put
        ⟨5, -1, 3, [("a", ⟨.other, 3, 1, none⟩)], 0⟩ 0 "k" .other (some 5)
        none = .ok (true, st', tr) ∧ st'.size = 5) ∧
    (∃ st' tr, FixedSizeLRUCache.put
        ⟨5, 3, some "a", some "a", [("a", ⟨.other, 3, none, none, none⟩)]⟩
        "k" .other (some 5) none = .ok (true, st', tr) ∧ st'.ledger = 5) :=
  ⟨c10_limit_sized_put_accepted.1 ⟨7, -1, 0, [], 0⟩ 0 "k" .other (some 7)
      none (by decide) rfl rfl rfl,
    c10_limit_sized_put_accepted.2.1 ⟨7, 0, none, none, []⟩ "k" .other
      (some 7) none (by decide) rfl rfl rfl,
    c10_limit_sized_put_accepted.2.2.1
      ⟨5, -1, 3, [("a", ⟨.other, 3, 1, none⟩)], 0⟩ 0 "k" .other (some 5)
      none (by decide) rfl
      (by intro p hp; rw [List.mem_singleton] at hp; subst hp; rfl)
      (by decide) rfl
      (by intro p hp; rw [List.mem_singleton] at hp; subst hp; decide),
    c10_limit_sized_put_accepted.2.2.2
      ⟨5, 3, some "a", some "a", [("a", ⟨.other, 3, none, none, none⟩)]⟩
      "k" .other (some 5) none ["a"] (by decide) rfl
      ⟨rfl, rfl, by decide, by decide⟩
      (by intro p hp; rw [List.mem_singleton] at hp; subst hp; rfl)
      rfl
      (by intro p hp; rw [List.mem_singleton] at hp; subst hp; decide)⟩
theorem decayStepS_findVal (st : FixedSizeLFUCache) (now : Int) (k : String) :
    ∃ f : SLfuEntry → SLfuEntry,
      (∀ a, (f a).value = a.value ∧ (f a).onEvict = a.onEvict) ∧
      findVal (st.decayStep now).entries k = (findVal st.entries k).map f := by
  rcases decayStepS_entries_cases st now with h | h <;> rw [h]
  · exact ⟨id, fun a => ⟨rfl, rfl⟩, by cases findVal st.entries k <;> rfl⟩
  · refine ⟨fun e => { e with accesses := Int.fdiv e.accesses 2 },
      fun a => ⟨rfl, rfl⟩, ?_⟩
    exact findVal_mapSnd st.entries
      (fun e => { e with accesses := Int.fdiv e.accesses 2 }) k

/-- A constantly-vetoing entry survives any `FixedSizeLFUCache.put` for
another key, and its candidate is visited at most once. -/
theorem slfu_put_veto_preserved :
    ∀ (st : FixedSizeLFUCache) (now : Int) (pk : String) (v : JSValue)
    (szOpt : Option Int) (pcb : Option Cb) (k : String) (e : SLfuEntry)
    (cb : Cb),
    (keysOf st.entries).Nodup →
    findVal st.entries k = some e →
    e.onEvict = some cb →
    (∀ a w, cb a w = false) →
    pk ≠ k →
    ∀ b st' tr, FixedSizeLFUCache.put st now pk v szOpt pcb =
      .ok (b, st', tr) →
    (∃ e', findVal st'.entries k = some e' ∧ e'.value = e.value ∧
      e'.onEvict = some cb) ∧
    List.count k (tr.map Visit.cand) ≤ 1 := by
  intro st now pk v szOpt pcb k e cb hnd hfk hoe hcb hpk b st' tr hput
  obtain ⟨f, hfprop, hfeq⟩ := decayStepS_findVal st now k
  have hfk1 : findVal (st.decayStep now).entries k = some (f e) := by
    rw [hfeq, hfk]
    rfl
  have hval1 : (f e).value = e.value := (hfprop e).1
  have hoe1 : (f e).onEvict = some cb := by rw [(hfprop e).2, hoe]
  have hnd1 : (keysOf (st.decayStep now).entries).Nodup := by
    rw [decayStepS_keys]
    exact hnd
  unfold FixedSizeLFUCache.put at hput
  by_cases hk0 : pk = ""
  · rw [if_pos hk0] at hput
    cases hput
  · rw [if_neg hk0] at hput
    cases hres : resolveSize szOpt v with
    | error err =>
      rw [hres] at hput
      cases hput
    | ok sz =>
      rw [hres] at hput
      dsimp only at hput
      by_cases hbig : sz > st.maxSize
      · rw [if_pos hbig] at hput
        simp only [Except.ok.injEq, Prod.mk.injEq] at hput
        obtain ⟨-, hst, htr⟩ := hput
        subst hst
        subst htr
        exact ⟨⟨e, hfk, rfl, hoe⟩, by simp⟩
      · rw [if_neg hbig] at hput
        by_cases hcond : (st.decayStep now).maxSize -
            (st.decayStep now).size < sz
        · rw [if_pos hcond] at hput
          have hpermS : List.Perm (sortByAccS (st.decayStep now).entries)
              (st.decayStep now).entries := List.perm_insertionSort _ _
          have hveto : ∀ e', (k, e') ∈ sortByAccS (st.decayStep now).entries →
              ∃ cb', e'.onEvict = some cb' ∧ cb' k e'.value = false := by
            intro e' hmem
            have hmem2 := hpermS.mem_iff.mp hmem
            have hfv2 := findVal_of_mem_nodup hmem2 hnd1
            rw [hfk1] at hfv2
            injection hfv2 with hfv2
            subst hfv2
            exact ⟨cb, hoe1, hcb k _⟩
          have hkeep := lfuEvictPass_preserve
            (fun l => decide ((st.decayStep now).maxSize - l < sz))
            (·.size) (·.onEvict) (·.value) k
            (sortByAccS (st.decayStep now).entries)
            (st.decayStep now).size (st.decayStep now).entries [] hveto
          obtain ⟨Δ, rest, htr1, htr2⟩ := lfuEvictPass_trace
            (fun l => decide ((st.decayStep now).maxSize - l < sz))
            (·.size) (·.onEvict) (·.value)
            (sortByAccS (st.decayStep now).entries)
            (st.decayStep now).size (st.decayStep now).entries []
          have hnds : (keysOf (sortByAccS (st.decayStep now).entries)).Nodup := by
            have h2 := (hpermS.map (·.1)).nodup_iff.mpr
              (by simpa [keysOf] using hnd1)
            simpa [keysOf] using h2
          have hcountK : List.count k (Δ.map Visit.cand) ≤ 1 := by
            have h1 := List.nodup_iff_count_le_one.mp hnds k
            rw [htr2, List.count_append] at h1
            omega
          by_cases hr : (st.decayStep now).maxSize - (lfuEvictPass
              (fun l => decide ((st.decayStep now).maxSize - l < sz))
              (·.size) (·.onEvict) (·.value)
              (sortByAccS (st.decayStep now).entries)
              (st.decayStep now).size (st.decayStep now).entries []).1 < sz
          · rw [if_pos hr] at hput
            simp only [Except.ok.injEq, Prod.mk.injEq] at hput
            obtain ⟨-, hst, htr⟩ := hput
            subst hst
            subst htr
            refine ⟨⟨f e, by rw [hkeep]; exact hfk1, hval1, hoe1⟩, ?_⟩
            rw [htr1]
            simpa using hcountK
          · rw [if_neg hr] at hput
            simp only [Except.ok.injEq, Prod.mk.injEq] at hput
            obtain ⟨-, hst, htr⟩ := hput
            subst hst
            subst htr
            refine ⟨⟨f e, ?_, hval1, hoe1⟩, ?_⟩
            · rw [findVal_setKey_ne _ _ _ _ hpk, hkeep]
              exact hfk1
            · rw [htr1]
              simpa using hcountK
        · rw [if_neg hcond] at hput
          simp only [Except.ok.injEq, Prod.mk.injEq] at hput
          obtain ⟨-, hst, htr⟩ := hput
          subst hst
          subst htr
          refine ⟨⟨f e, ?_, hval1, hoe1⟩, by simp⟩
          rw [findVal_setKey_ne _ _ _ _ hpk]
          exact hfk1

theorem decayStepC_entries_cases (st : FixedCountLFUCache) (now : Int) :
    (st.decayStep now).entries = st.entries ∨
      (st.decayStep now).entries = st.entries.map
        (fun p => (p.1, { p.2 with accesses := Int.fdiv p.2.accesses 2 })) := by
  unfold FixedCountLFUCache.decayStep
  (try split) <;> (try split)
  · exact Or.inr rfl
  · exact Or.inl rfl
  · exact Or.inl rfl

theorem decayStepC_keys (st : FixedCountLFUCache) (now : Int) :
    keysOf (st.decayStep now).entries = keysOf st.entries := by
  rcases decayStepC_entries_cases st now with h | h <;> rw [h]
  simp [keysOf, List.map_map, Function.comp_def]

theorem decayStepC_findVal (st : FixedCountLFUCache) (now : Int)
    (k : String) :
    ∃ f : CLfuEntry → CLfuEntry,
      (∀ a, (f a).value = a.value ∧ (f a).onEvict = a.onEvict) ∧
      findVal (st.decayStep now).entries k = (findVal st.entries k).map f := by
  rcases decayStepC_entries_cases st now with h | h <;> rw [h]
  · exact ⟨id, fun a => ⟨rfl, rfl⟩, by cases findVal st.entries k <;> rfl⟩
  · refine ⟨fun e => { e with accesses := Int.fdiv e.accesses 2 },
      fun a => ⟨rfl, rfl⟩, ?_⟩
    exact findVal_mapSnd st.entries
      (fun e => { e with accesses := Int.fdiv e.accesses 2 }) k

/-- A constantly-vetoing entry survives any `FixedCountLFUCache.put` for
another key, and its candidate is visited at most once. -/
theorem clfu_put_veto_preserved :
    ∀ (st : FixedCountLFUCache) (now : Int) (pk : String)
    (v : JSValue) (pcb : Option Cb) (k : String) (e : CLfuEntry) (cb : Cb),
    (keysOf st.entries).Nodup →
    findVal st.entries k = some e →
    e.onEvict = some cb →
    (∀ a w, cb a w = false) →
    pk ≠ k →
    ∀ b st' tr, FixedCountLFUCache.put st now pk v pcb = .ok (b, st', tr) →
    (∃ e', findVal st'.entries k = some e' ∧ e'.value = e.value ∧
      e'.onEvict = some cb) ∧
    List.count k (tr.map Visit.cand) ≤ 1 := by
  intro st now pk v pcb k e cb hnd hfk hoe hcb hpk b st' tr hput
  obtain ⟨f, hfprop, hfeq⟩ := decayStepC_findVal st now k
  have hfk1 : findVal (st.decayStep now).entries k = some (f e) := by
    rw [hfeq, hfk]
    rfl
  have hval1 : (f e).value = e.value := (hfprop e).1
  have hoe1 : (f e).onEvict = some cb := by rw [(hfprop e).2, hoe]
  have hnd1 : (keysOf (st.decayStep now).entries).Nodup := by
    rw [decayStepC_keys]
    exact hnd
  unfold FixedCountLFUCache.put at hput
  by_cases hk0 : pk = ""
  · rw [if_pos hk0] at hput
    cases hput
  · rw [if_neg hk0] at hput
    dsimp only at hput
    by_cases hcond : (st.decayStep now).count ≥ (st.decayStep now).maxCount
    · rw [if_pos hcond] at hput
      have hpermS : List.Perm (sortByAccC (st.decayStep now).entries)
          (st.decayStep now).entries := List.perm_insertionSort _ _
      have hveto : ∀ e', (k, e') ∈ sortByAccC (st.decayStep now).entries →
          ∃ cb', e'.onEvict = some cb' ∧ cb' k e'.value = false := by
        intro e' hmem
        have hmem2 := hpermS.mem_iff.mp hmem
        have hfv2 := findVal_of_mem_nodup hmem2 hnd1
        rw [hfk1] at hfv2
        injection hfv2 with hfv2
        subst hfv2
        exact ⟨cb, hoe1, hcb k _⟩
      have hkeep := lfuEvictPass_preserve
        (fun l => decide (l ≥ (st.decayStep now).maxCount))
        (fun _ => 1) (·.onEvict) (·.value) k
        (sortByAccC (st.decayStep now).entries)
        (st.decayStep now).count (st.decayStep now).entries [] hveto
      obtain ⟨Δ, rest, htr1, htr2⟩ := lfuEvictPass_trace
        (fun l => decide (l ≥ (st.decayStep now).maxCount))
        (fun _ => 1) (·.onEvict) (·.value)
        (sortByAccC (st.decayStep now).entries)
        (st.decayStep now).count (st.decayStep now).entries []
      have hnds : (keysOf (sortByAccC (st.decayStep now).entries)).Nodup := by
        have h2 := (hpermS.map (·.1)).nodup_iff.mpr
          (by simpa [keysOf] using hnd1)
        simpa [keysOf] using h2
      have hcountK : List.count k (Δ.map Visit.cand) ≤ 1 := by
        have h1 := List.nodup_iff_count_le_one.mp hnds k
        rw [htr2, List.count_append] at h1
        omega
      by_cases hr : (lfuEvictPass
          (fun l => decide (l ≥ (st.decayStep now).maxCount))
          (fun _ => 1) (·.onEvict) (·.value)
          (sortByAccC (st.decayStep now).entries)
          (st.decayStep now).count (st.decayStep now).entries []).1 ≥
          (st.decayStep now).maxCount
      · rw [if_pos hr] at hput
        simp only [Except.ok.injEq, Prod.mk.injEq] at hput
        obtain ⟨-, hst, htr⟩ := hput
        subst hst
        subst htr
        refine ⟨⟨f e, by rw [hkeep]; exact hfk1, hval1, hoe1⟩, ?_⟩
        rw [htr1]
        simpa using hcountK
      · rw [if_neg hr] at hput
        simp only [Except.ok.injEq, Prod.mk.injEq] at hput
        obtain ⟨-, hst, htr⟩ := hput
        subst hst
        subst htr
        refine ⟨⟨f e, ?_, hval1, hoe1⟩, ?_⟩
        · rw [findVal_setKey_ne _ _ _ _ hpk, hkeep]
          exact hfk1
        · rw [htr1]
          simpa using hcountK
    · rw [if_neg hcond] at hput
      simp only [Except.ok.injEq, Prod.mk.injEq] at hput
      obtain ⟨-, hst, htr⟩ := hput
      subst hst
      subst htr
      refine ⟨⟨f e, ?_, hval1, hoe1⟩, by simp⟩
      rw [findVal_setKey_ne _ _ _ _ hpk]
      exact hfk1

/-- A constantly-vetoing entry survives any `FixedSizeLRUCache.put` for
another key; on a well-formed recency list its candidate is visited at most
once. -/
theorem slru_put_veto_preserved :
    ∀ (st : LruCache) (pk : String) (v : JSValue) (szOpt : Option Int)
    (pcb : Option Cb) (k : String) (e : LruEntry) (cb : Cb)
    (ks : List String),
    LruWf st ks →
    findVal st.entries k = some e →
    e.onEvict = some cb →
    (∀ a w, cb a w = false) →
    pk ≠ k →
    ∀ b st' tr, FixedSizeLRUCache.put st pk v szOpt pcb = .ok (b, st', tr) →
    (∃ e', findVal st'.entries k = some e' ∧ e'.value = e.value ∧
      e'.onEvict = some cb) ∧
    List.count k (tr.map Visit.cand) ≤ 1 := by
  intro st pk v szOpt pcb k e cb ks hwf hfk hoe hcb hpk b st' tr hput
  obtain ⟨hch, hhd, hndk, hperm⟩ := hwf
  unfold FixedSizeLRUCache.put at hput
  by_cases hk0 : pk = ""
  · rw [if_pos hk0] at hput
    cases hput
  · rw [if_neg hk0] at hput
    cases hres : resolveSize szOpt v with
    | error err =>
      rw [hres] at hput
      cases hput
    | ok sz =>
      rw [hres] at hput
      dsimp only at hput
      by_cases hbig : sz > st.maxL
      · rw [if_pos hbig] at hput
        simp only [Except.ok.injEq, Prod.mk.injEq] at hput
        obtain ⟨-, hst, htr⟩ := hput
        subst hst
        subst htr
        exact ⟨⟨e, hfk, rfl, hoe⟩, by simp⟩
      · rw [if_neg hbig] at hput
        by_cases hcond : st.maxL - st.ledger < sz
        · rw [if_pos hcond] at hput
          have hfuel : ks.length + 1 ≤ st.entries.length + 1 := by
            have := hperm.length_eq
            simp only [keysOf, List.length_map] at this
            omega
          obtain ⟨stL, Δ, hloopeq, hsubl⟩ := lruEvictLoop_master
            (fun l => decide (st.maxL - l < sz)) (·.size) ks []
            (st.entries.length + 1) st [] hch hhd hndk hperm hfuel
          rw [hhd, hloopeq] at hput
          dsimp only at hput
          obtain ⟨ek', hk1, hk2, hk3⟩ := lruEvictLoop_preserve
            (fun l => decide (st.maxL - l < sz)) (·.size) k cb hcb
            (st.entries.length + 1) ks.head? st [] e hfk hoe stL
            ([] ++ Δ) hloopeq
          have hcountK : List.count k (Δ.map Visit.cand) ≤ 1 := by
            have h1 := List.nodup_iff_count_le_one.mp hndk k
            have h2 := hsubl.count_le k
            omega
          by_cases hr : stL.maxL - stL.ledger < sz
          · rw [if_pos hr] at hput
            simp only [Except.ok.injEq, Prod.mk.injEq] at hput
            obtain ⟨-, hst, htr⟩ := hput
            subst hst
            subst htr
            exact ⟨⟨ek', hk1, hk2, hk3⟩, by simpa using hcountK⟩
          · rw [if_neg hr] at hput
            simp only [Except.ok.injEq, Prod.mk.injEq] at hput
            obtain ⟨-, hst, htr⟩ := hput
            subst hst
            subst htr
            obtain ⟨ek2, h1, h2, -, h4⟩ := lruInsert_findVal_fields stL pk v
              sz pcb sz k hpk hk1
            refine ⟨⟨ek2, h1, by rw [h2, hk2], by rw [h4, hk3]⟩, ?_⟩
            simpa using hcountK
        · rw [if_neg hcond] at hput
          simp only [Except.ok.injEq, Prod.mk.injEq] at hput
          obtain ⟨-, hst, htr⟩ := hput
          subst hst
          subst htr
          obtain ⟨ek2, h1, h2, -, h4⟩ := lruInsert_findVal_fields st pk v
            sz pcb sz k hpk hfk
          exact ⟨⟨ek2, h1, by rw [h2], by rw [h4, hoe]⟩, by simp⟩

/-- A constantly-vetoing entry survives any `FixedCountLRUCache.put` for
another key; on a well-formed recency list its candidate is visited at most
once. -/
theorem clru_put_veto_preserved :
    ∀ (st : LruCache) (pk : String) (v : JSValue) (pcb : Option Cb)
    (k : String) (e : LruEntry) (cb : Cb) (ks : List String),
    LruWf st ks →
    findVal st.entries k = some e →
    e.onEvict = some cb →
    (∀ a w, cb a w = false) →
    pk ≠ k →
    ∀ b st' tr, FixedCountLRUCache.put st pk v pcb = .ok (b, st', tr) →
    (∃ e', findVal st'.entries k = some e' ∧ e'.value = e.value ∧
      e'.onEvict = some cb) ∧
    List.count k (tr.map Visit.cand) ≤ 1 := by
  intro st pk v pcb k e cb ks hwf hfk hoe hcb hpk b st' tr hput
  obtain ⟨hch, hhd, hndk, hperm⟩ := hwf
  unfold FixedCountLRUCache.put at hput
  by_cases hk0 : pk = ""
  · rw [if_pos hk0] at hput
    cases hput
  · rw [if_neg hk0] at hput
    by_cases hcond : st.ledger ≥ st.maxL
    · rw [if_pos hcond] at hput
      have hfuel : ks.length + 1 ≤ st.entries.length + 1 := by
        have := hperm.length_eq
        simp only [keysOf, List.length_map] at this
        omega
      obtain ⟨stL, Δ, hloopeq, hsubl⟩ := lruEvictLoop_master
        (fun l => decide (l ≥ st.maxL)) (fun _ => 1) ks []
        (st.entries.length + 1) st [] hch hhd hndk hperm hfuel
      rw [hhd, hloopeq] at hput
      dsimp only at hput
      obtain ⟨ek', hk1, hk2, hk3⟩ := lruEvictLoop_preserve
        (fun l => decide (l ≥ st.maxL)) (fun _ => 1) k cb hcb
        (st.entries.length + 1) ks.head? st [] e hfk hoe stL
        ([] ++ Δ) hloopeq
      have hcountK : List.count k (Δ.map Visit.cand) ≤ 1 := by
        have h1 := List.nodup_iff_count_le_one.mp hndk k
        have h2 := hsubl.count_le k
        omega
      by_cases hr : stL.ledger ≥ stL.maxL
      · rw [if_pos hr] at hput
        simp only [Except.ok.injEq, Prod.mk.injEq] at hput
        obtain ⟨-, hst, htr⟩ := hput
        subst hst
        subst htr
        exact ⟨⟨ek', hk1, hk2, hk3⟩, by simpa using hcountK⟩
      · rw [if_neg hr] at hput
        simp only [Except.ok.injEq, Prod.mk.injEq] at hput
        obtain ⟨-, hst, htr⟩ := hput
        subst hst
        subst htr
        obtain ⟨ek2, h1, h2, -, h4⟩ := lruInsert_findVal_fields stL pk v
          0 pcb 1 k hpk hk1
        refine ⟨⟨ek2, h1, by rw [h2, hk2], by rw [h4, hk3]⟩, ?_⟩
        simpa using hcountK
    · rw [if_neg hcond] at hput
      simp only [Except.ok.injEq, Prod.mk.injEq] at hput
      obtain ⟨-, hst, htr⟩ := hput
      subst hst
      subst htr
      obtain ⟨ek2, h1, h2, -, h4⟩ := lruInsert_findVal_fields st pk v
        0 pcb 1 k hpk hfk
      exact ⟨⟨ek2, h1, by rw [h2], by rw [h4, hoe]⟩, by simp⟩

/-! ## C6 — the veto protocol -/

/-- Size LFU cache full at 10/10 bytes whose only entry vetoes. -/
def c6SizeLfu : FixedSizeLFUCache :=
  ⟨10, -1, 10, [("a", ⟨.str "va", 10, 1, some cbFalse⟩)], 0⟩

/-- Count LFU cache full at 1/1 whose only entry vetoes. -/
def c6CountLfu : FixedCountLFUCache :=
  ⟨1, 1, -1, [("a", ⟨.str "va", 1, some cbFalse⟩)], 0⟩

/-- Size LRU cache full at 10/10 bytes whose only entry vetoes. -/
def c6SizeLru : LruCache :=
  ⟨10, 10, some "a", some "a", [("a", ⟨.str "va", 10, none, none,
    some cbFalse⟩)]⟩

/-- Count LRU cache full at 1/1 whose only entry vetoes. -/
def c6CountLru : LruCache :=
  ⟨1, 1, some "a", some "a", [("a", ⟨.str "va", 0, none, none,
    some cbFalse⟩)]⟩

/-- **C6.**  The veto protocol, for every cache variant.  Universally: an
entry whose callback returns exactly `false` is never removed by a `put`
of a different key (its value and callback are still stored afterwards),
and within one `put` call its candidate is visited at most once — for the
LFU variants on any store with unique keys, for the LRU variants on any
well-formed recency list.  Concretely: when such an entry is the sole
candidate and the headroom stays insufficient, `put` returns `rejected`
(after invoking the callback once) and the vetoed entry is still
retrievable by `get`, on all four variants. -/
theorem c6_veto_prevents_removal :
    (∀ (st : FixedSizeLFUCache) (now : Int) (pk : String) (v : JSValue)
      (szOpt : Option Int) (pcb : Option Cb) (k : String) (e : SLfuEntry)
      (cb : Cb),
      (keysOf st.entries).Nodup →
      findVal st.entries k = some e →
      e.onEvict = some cb →
      (∀ a w, cb a w = false) →
      pk ≠ k →
      ∀ b st' tr, FixedSizeLFUCache.put st now pk v szOpt pcb =
        .ok (b, st', tr) →
      (∃ e', findVal st'.entries k = some e' ∧ e'.value = e.value ∧
        e'.onEvict = some cb) ∧
      List.count k (tr.map Visit.cand) ≤ 1) ∧
    (∀ (st : FixedCountLFUCache) (now : Int) (pk : String) (v : JSValue)
      (pcb : Option Cb) (k : String) (e : CLfuEntry) (cb : Cb),
      (keysOf st.entries).Nodup →
      findVal st.entries k = some e →
      e.onEvict = some cb →
      (∀ a w, cb a w = false) →
      pk ≠ k →
      ∀ b st' tr, FixedCountLFUCache.put st now pk v pcb =
        .ok (b, st', tr) →
      (∃ e', findVal st'.entries k = some e' ∧ e'.value = e.value ∧
        e'.onEvict = some cb) ∧
      List.count k (tr.map Visit.cand) ≤ 1) ∧
    (∀ (st : LruCache) (pk : String) (v : JSValue) (szOpt : Option Int)
      (pcb : Option Cb) (k : String) (e : LruEntry) (cb : Cb)
      (ks : List String),
      LruWf st ks →
      findVal st.entries k = some e →
      e.onEvict = some cb →
      (∀ a w, cb a w = false) →
      pk ≠ k →
      ∀ b st' tr, FixedSizeLRUCache.put st pk v szOpt pcb =
        .ok (b, st', tr) →
      (∃ e', findVal st'.entries k = some e' ∧ e'.value = e.value ∧
        e'.onEvict = some cb) ∧
      List.count k (tr.map Visit.cand) ≤ 1) ∧
    (∀ (st : LruCache) (pk : String) (v : JSValue) (pcb : Option Cb)
      (k : String) (e : LruEntry) (cb : Cb) (ks : List String),
      LruWf st ks →
      findVal st.entries k = some e →
      e.onEvict = some cb →
      (∀ a w, cb a w = false) →
      pk ≠ k →
      ∀ b st' tr, FixedCountLRUCache.put st pk v pcb = .ok (b, st', tr) →
      (∃ e', findVal st'.entries k = some e' ∧ e'.value = e.value ∧
        e'.onEvict = some cb) ∧
      List.count k (tr.map Visit.cand) ≤ 1) ∧
    (∃ st', FixedSizeLFUCache.put c6SizeLfu 0 "b" .other (some 5) none =
      .ok (false, st', [.called "a" "a" (.str "va") false]) ∧
      (st'.get "a").1 = some (.str "va")) ∧
    (∃ st', FixedCountLFUCache.put c6CountLfu 0 "b" .other none =
      .ok (false, st', [.called "a" "a" (.str "va") false]) ∧
      (st'.get "a").1 = some (.str "va")) ∧
    (∃ st', FixedSizeLRUCache.put c6SizeLru "b" .other (some 5) none =
      .ok (false, st', [.called "a" "a" (.str "va") false]) ∧
      (st'.get "a").1 = some (.str "va")) ∧
    (∃ st', FixedCountLRUCache.put c6CountLru "b" .other none =
      .ok (false, st', [.called "a" "a" (.str "va") false]) ∧
      (st'.get "a").1 = some (.str "va")) :=
  ⟨slfu_put_veto_preserved,
    clfu_put_veto_preserved,
    slru_put_veto_preserved,
    clru_put_veto_preserved,
    ⟨_, rfl, rfl⟩, ⟨_, rfl, rfl⟩, ⟨_, rfl, rfl⟩, ⟨_, rfl, rfl⟩⟩

/-- Closed instance of `c6_veto_prevents_removal`: on each variant's full
one-entry cache with the constantly-vetoing callback, the entry is still
stored with its value and callback after a rejected `put`. -/
theorem c6_witness :
    (∃ e', findVal (FixedSizeLFUCache.putState c6SizeLfu 0 "b" .other
        (some 5) none).entries "a" = some e' ∧ e'.value = .str "va" ∧
      e'.onEvict = some cbFalse) ∧
    (∃ e', findVal (FixedCountLFUCache.putState c6CountLfu 0 "b" .other
        none).entries "a" = some e' ∧ e'.value = .str "va" ∧
      e'.onEvict = some cbFalse) ∧
    (∃ e', findVal (FixedSizeLRUCache.putState c6SizeLru "b" .other
        (some 5) none).entries "a" = some e' ∧ e'.value = .str "va" ∧
      e'.onEvict = some cbFalse) ∧
    (∃ e', findVal (FixedCountLRUCache.putState c6CountLru "b" .other
        none).entries "a" = some e' ∧ e'.value = .str "va" ∧
      e'.onEvict = some cbFalse) := by
  refine ⟨?_, ?_, ?_, ?_⟩
  · have h := c6_veto_prevents_removal.1 c6SizeLfu 0 "b" .other (some 5)
      none "a" ⟨.str "va", 10, 1, some cbFalse⟩ cbFalse (by decide) rfl rfl
      (fun _ _ => rfl) (by decide)
    exact (h false _ [.called "a" "a" (.str "va") false] rfl).1
  · have h := c6_veto_prevents_removal.2.1 c6CountLfu 0 "b" .other
      none "a" ⟨.str "va", 1, some cbFalse⟩ cbFalse (by decide) rfl rfl
      (fun _ _ => rfl) (by decide)
    exact (h false _ [.called "a" "a" (.str "va") false] rfl).1
  · have h := c6_veto_prevents_removal.2.2.1 c6SizeLru "b" .other (some 5)
      none "a" ⟨.str "va", 10, none, none, some cbFalse⟩ cbFalse ["a"]
      ⟨rfl, rfl, by decide, by decide⟩ rfl rfl (fun _ _ => rfl) (by decide)
    exact (h false _ [.called "a" "a" (.str "va") false] rfl).1
  · have h := c6_veto_prevents_removal.2.2.2.1 c6CountLru "b" .other
      none "a" ⟨.str "va", 0, none, none, some cbFalse⟩ cbFalse ["a"]
      ⟨rfl, rfl, by decide, by decide⟩ rfl rfl (fun _ _ => rfl) (by decide)
    exact (h false _ [.called "a" "a" (.str "va") false] rfl).1
